import Mathlib

/-!
Verification of the retrieval engine of the Suspect-Detection repository:
the structure-aware chunker (`retrieval/chunker.py`), the lexical index
(`retrieval/fts.py`), the vector index (`retrieval/vector.py`) and the
hybrid fusion layer / facade (`retrieval/search.py`).

Text is modelled as `List Char` (Python strings are sequences of code
points, and `len` counts code points).  External libraries are modelled
as function parameters: the pinned HuggingFace tokenizer as a
`countTokens : Str → Nat` field, `hashlib.md5(...).hexdigest()[:8]` as a
`md5hex8 : Str → Str` field, the sentence-transformers embedder and the
FAISS similarity search as fields of `VectorExt`.  Scores are rationals.
-/

namespace SuspectDetection

abbrev Str := List Char

/-- Python `str` whitespace used by `.strip()` / `.split()` (ASCII part,
which is all that clinical text here uses). -/
def isWS (c : Char) : Bool :=
  c = ' ' || c = '\t' || c = '\n' || c = '\r' || c = '\x0b' || c = '\x0c'

/-- Python `s.strip()`. -/
def pstrip (s : Str) : Str :=
  ((s.dropWhile isWS).reverse.dropWhile isWS).reverse

/-- `s` contains at least one non-whitespace character
(equivalently, `s.strip()` is non-empty). -/
def containsNonWS (s : Str) : Bool := s.any (fun c => !isWS c)

/-- Python `sep.join(parts)`. -/
def joinWith (sep : Str) (parts : List Str) : Str :=
  match parts with
  | [] => []
  | p :: ps => p ++ (ps.map (fun q => sep ++ q)).flatten

/-- Python `" ".join(parts)`. -/
def joinSp (parts : List Str) : Str := joinWith [' '] parts

/-- Worker of `splitNL`: `cur` is the current piece reversed, `acc` the
finished pieces reversed. -/
def splitNLGo : Str → Str → List Str → List Str
  | [], cur, acc => (cur.reverse :: acc).reverse
  | c :: rest, cur, acc =>
    if c = '\n' then splitNLGo rest [] (cur.reverse :: acc)
    else splitNLGo rest (c :: cur) acc

/-- Python `content.split("\n")` (keeps empty pieces). -/
def splitNL (s : Str) : List Str := splitNLGo s [] []

/-- Python `s.split()` (split on whitespace runs, dropping empties). -/
def wordSplit : Str → List Str
  | [] => []
  | c :: rest =>
    if isWS c then wordSplit rest
    else
      match wordSplit rest with
      | [] => [[c]]
      | p :: ps =>
        match rest with
        | [] => [[c]]
        | d :: _ => if isWS d then [c] :: p :: ps else (c :: p) :: ps

/-- Substring test: does `needle` occur inside `hay`?  (Python `in`.) -/
def containsSub (needle hay : Str) : Bool :=
  match hay with
  | [] => needle.isPrefixOf ([] : Str)
  | _ :: rest => needle.isPrefixOf hay || containsSub needle rest

/-- ASCII lower-casing, Python `str.lower` on the characters used here. -/
def lowerCh (c : Char) : Char :=
  if 'A' ≤ c ∧ c ≤ 'Z' then Char.ofNat (c.toNat + 32) else c

def lowerStr (s : Str) : Str := s.map lowerCh

/-- First index (if any) at which `needle` occurs in `hay`,
case-insensitively — models `re.IGNORECASE` literal search. -/
def findCI (needle hay : Str) : Option Nat :=
  go (lowerStr needle) (lowerStr hay) 0
where
  go (n h : Str) (i : Nat) : Option Nat :=
    match h with
    | [] => if n.isPrefixOf ([] : Str) then some i else none
    | _ :: rest => if n.isPrefixOf h then some i else go n rest (i + 1)

/-- Decimal digit characters (Python `str(n)` uses these). -/
def digitChar : Nat → Char
  | 0 => '0' | 1 => '1' | 2 => '2' | 3 => '3' | 4 => '4'
  | 5 => '5' | 6 => '6' | 7 => '7' | 8 => '8' | _ => '9'

def natDecimalAux : Nat → Nat → Str
  | 0, _ => []
  | fuel + 1, n =>
    if n < 10 then [digitChar n]
    else natDecimalAux fuel (n / 10) ++ [digitChar (n % 10)]

/-- Decimal rendering of a natural number, as Python `str(n)` / f-strings. -/
def natDecimal (n : Nat) : Str := natDecimalAux (n + 1) n

/-! ## `core/models.py` -/

/-- The metadata dict built by `Chunker._create_chunk`: keys
`patient_id`, `doc_type`, `date`, `source_file` always present (date may
be `None`), key `section` present only when a section name was given. -/
structure Metadata where
  patient_id : Str
  doc_type : Str
  date : Option Str
  source_file : Str
  /-- the `section` key (`section` is reserved in Lean). -/
  sectionName : Option Str
deriving DecidableEq, Repr

structure Chunk where
  id : Str
  content : Str
  metadata : Metadata
deriving DecidableEq, Repr

structure Document where
  content : Str
  patient_id : Str
  doc_type : Str
  date : Option Str
  source_file : Str
deriving DecidableEq, Repr

/-! ## `retrieval/chunker.py` — text splitting primitives -/

/-- Is the head of the (reversed) accumulator a sentence-final mark?
Models the lookbehind `(?<=[.!?])`. -/
def punctHead : Str → Bool
  | [] => false
  | c :: _ => c = '.' || c = '!' || c = '?'

/-- Single pass for `re.split(r'(?<=[.!?])\s+', s)`: `acc` holds the
current piece reversed; `skipping` is true while consuming the maximal
whitespace run that forms the separator. -/
def ssGo : Str → Str → Bool → List Str
  | [], acc, _ => [acc.reverse]
  | c :: rest, acc, true =>
    if isWS c then ssGo rest acc true else ssGo rest [c] false
  | c :: rest, acc, false =>
    if isWS c ∧ punctHead acc then acc.reverse :: ssGo rest [] true
    else ssGo rest (c :: acc) false

/-- `re.split(r'(?<=[.!?])\s+', s)`: split at each maximal whitespace run
immediately preceded by `.`, `!` or `?`. -/
def splitSentences (s : Str) : List Str := ssGo s [] false

/-- Suffix of the reversed whitespace run `runRev` after its last `'\n'`
(in original order, reversed back): the characters of the run that the
greedy `\n\s*\n` separator does not consume. -/
def afterLastNL (runRev : Str) : Str :=
  (runRev.takeWhile (fun c => c ≠ '\n')).reverse

/-- Single pass for `re.split(r"\n\s*\n", content)`.  `acc` is the
current piece reversed; `run = some r` means we saw a `'\n'` and `r`
holds the following whitespace run so far (reversed).  The match of
`\n\s*\n` is the initial `'\n'` plus the run up to its last `'\n'`
(greedy `\s*` backtracking to the last `'\n'` of the maximal run). -/
def spGo : Str → Str → Option Str → List Str
  | [], acc, none => [acc.reverse]
  | [], acc, some run =>
    if run.contains '\n' then [acc.reverse, afterLastNL run]
    else [acc.reverse ++ '\n' :: run.reverse]
  | c :: rest, acc, none =>
    if c = '\n' then spGo rest acc (some [])
    else spGo rest (c :: acc) none
  | c :: rest, acc, some run =>
    if isWS c then spGo rest acc (some (c :: run))
    else if run.contains '\n' then
      acc.reverse :: spGo rest (c :: (run.takeWhile (fun d => d ≠ '\n'))) none
    else spGo rest (c :: (run ++ '\n' :: acc)) none

/-- `re.split(r"\n\s*\n", content)`. -/
def splitParagraphs (s : Str) : List Str := spGo s [] none

/-- `SECTION_DELIMITER = "=" * 80`. -/
def SECTION_DELIMITER : Str := List.replicate 80 '='

/-- `SMALL_SECTION_THRESHOLD = 200`. -/
def SMALL_SECTION_THRESHOLD : Nat := 200

/-- `MIN_SPLIT_CONTENT_SIZE = 50`. -/
def MIN_SPLIT_CONTENT_SIZE : Nat := 50

/-- `_with_header`: prepend header to content if header exists. -/
def withHeader (content header : Str) : Str :=
  if header ≠ [] then header ++ '\n' :: '\n' :: content else content

/-- Does this line end the header?  (`SECTION_DELIMITER in line or any(kw
in line for kw in ["Subjective:", "Chief Complaint:", "CLINICAL
INDICATION"])`, case-sensitive `in`.) -/
def headerStopLine (line : Str) : Bool :=
  containsSub SECTION_DELIMITER line ||
  containsSub "Subjective:".data line ||
  containsSub "Chief Complaint:".data line ||
  containsSub "CLINICAL INDICATION".data line

/-- The `for i, line in enumerate(lines)` loop of `_extract_header`:
returns the collected header lines and `body_start` (which stays `0` if
the loop runs to completion without a `break`). -/
def extractHeaderLoop : List Str → Nat → List Str → (List Str × Nat)
  | [], _, hdr => (hdr, 0)
  | line :: rest, i, hdr =>
    if headerStopLine line then (hdr, i)
    else if i < 10 then extractHeaderLoop rest (i + 1) (hdr ++ [line])
    else (hdr, i)

/-- `Chunker._extract_header`. -/
def extractHeader (content : Str) : Str × Str :=
  let lines := splitNL content
  let (headerLines, bodyStart) := extractHeaderLoop lines 0 []
  (pstrip (joinWith ['\n'] headerLines),
   pstrip (joinWith ['\n'] (lines.drop bodyStart)))

/-- Smallest position `≥ from_` at which one of `kws` occurs in `hay`
(case-insensitively).  Models the leftmost point where the lookahead
alternation of a SOAP pattern matches. -/
def findFirstAnyCI (kws : List Str) (hay : Str) (from_ : Nat) : Option Nat :=
  let hits := kws.filterMap (fun kw => (findCI kw (hay.drop from_)).map (· + from_))
  hits.foldl (fun acc i =>
    match acc with
    | none => some i
    | some j => some (min i j)) none

/-- One SOAP pattern `KW.*?(?=END1|END2|$)` with `re.DOTALL |
re.IGNORECASE`: the match starts at the first occurrence of a start
keyword (alternatives tried left to right at each position) and extends
minimally to the first occurrence of an end keyword at or after the end
of the start keyword, or to the end of the text.  The caller strips the
result, which absorbs the `$`-before-final-newline subtlety. -/
def extractSoapSection (startKws endKws : List Str) (body : Str) : Option Str :=
  match findFirstAnyCI startKws body 0 with
  | none => none
  | some i =>
    let kwLen :=
      match startKws.find? (fun kw => (lowerStr kw).isPrefixOf (lowerStr (body.drop i))) with
      | some kw => kw.length
      | none => 0
    let stop :=
      match findFirstAnyCI endKws body (i + kwLen) with
      | some p => p
      | none => body.length
    some ((body.drop i).take (stop - i))

/-! ## `retrieval/chunker.py` — the `Chunker` -/

/-- Configuration of `Chunker.__init__` plus its two external
dependencies: `countTokens` models the pinned HuggingFace tokenizer
(`_count_tokens`), `md5hex8` models
`hashlib.md5(x.encode()).hexdigest()[:8]`. -/
structure Chunker where
  min_chunk_size : Nat := 100
  max_chunk_size : Nat := 1500
  overlap_size : Nat := 100
  max_tokens : Nat := 480
  countTokens : Str → Nat
  md5hex8 : Str → Str

/-- `f"{section_name}_part{part_num}"`. -/
def partName (sectionName : Str) (part : Nat) : Str :=
  sectionName ++ "_part".data ++ natDecimal part

/-- Mutable state of the sentence loop of `_split_oversized_chunk`:
`chunks`, `current_sentences`, `current_tokens`, `part_num`. -/
structure SplitState where
  chunks : List (Str × Str)
  cur : List Str
  curTok : Nat
  partNum : Nat

/-- The inner word loop of `_split_oversized_chunk` (lines 107-119):
arguments are the remaining words, `word_chunk`, `word_tokens`, the
emitted chunks and `part_num`; result is final
(`chunks`, `part_num`, `word_chunk`). -/
def wordLoop (count : Str → Nat) (avail : Nat) (header sectionName : Str) :
    List Str → List Str → Nat → List (Str × Str) → Nat →
    List (Str × Str) × Nat × List Str
  | [], wchunk, _, chunks, part => (chunks, part, wchunk)
  | w :: ws, wchunk, wtok, chunks, part =>
    let wt := count w
    if avail < wtok + wt ∧ wchunk ≠ [] then
      let body := joinSp wchunk
      let step :=
        if MIN_SPLIT_CONTENT_SIZE ≤ body.length then
          (chunks ++ [(partName sectionName part, withHeader body header)], part + 1)
        else (chunks, part)
      wordLoop count avail header sectionName ws [w] wt step.1 step.2
    else
      wordLoop count avail header sectionName ws (wchunk ++ [w]) (wtok + wt) chunks part

/-- The sentence loop of `_split_oversized_chunk` (lines 84-139). -/
def sentLoop (count : Str → Nat) (avail : Nat) (header sectionName : Str) :
    List Str → SplitState → SplitState
  | [], st => st
  | s :: rest, st =>
    let sent := pstrip s
    if sent = [] then sentLoop count avail header sectionName rest st
    else
      let sentTok := count sent
      if avail < sentTok then
        -- long sentence: save the current chunk, then split by words
        let saved :=
          if st.cur ≠ [] then
            let body := joinSp st.cur
            if MIN_SPLIT_CONTENT_SIZE ≤ body.length then
              (st.chunks ++ [(partName sectionName st.partNum, withHeader body header)],
               st.partNum + 1)
            else (st.chunks, st.partNum)
          else (st.chunks, st.partNum)
        let words := wordSplit sent
        let wres := wordLoop count avail header sectionName words [] 0 saved.1 saved.2
        let next :=
          if wres.2.2 ≠ [] then
            ([joinSp wres.2.2], count (joinSp wres.2.2))
          else (([] : List Str), 0)
        sentLoop count avail header sectionName rest
          ⟨wres.1, next.1, next.2, wres.2.1⟩
      else if avail < st.curTok + sentTok ∧ st.cur ≠ [] then
        let body := joinSp st.cur
        let saved :=
          if MIN_SPLIT_CONTENT_SIZE ≤ body.length then
            (st.chunks ++ [(partName sectionName st.partNum, withHeader body header)],
             st.partNum + 1)
          else (st.chunks, st.partNum)
        -- start new chunk with overlap (last 1-2 sentences)
        let overlap :=
          if 1 < st.cur.length then st.cur.drop (st.cur.length - 2)
          else st.cur.drop (st.cur.length - 1)
        let cur' := overlap ++ [sent]
        sentLoop count avail header sectionName rest
          ⟨saved.1, cur', count (joinSp cur'), saved.2⟩
      else
        sentLoop count avail header sectionName rest
          { st with cur := st.cur ++ [sent], curTok := st.curTok + sentTok }

/-- `return chunks if chunks else [(section_name, content)]`
(line 154). -/
def orWhole (l : List (Str × Str)) (sectionName content : Str) :
    List (Str × Str) :=
  if l = [] then [(sectionName, content)] else l

/-- `Chunker._split_oversized_chunk`.  In Python
`available_tokens = max_tokens - header_tokens - 10` is a (possibly
negative) int and the guard is `available_tokens < 50`, which is
equivalent over ℤ to `max_tokens < header_tokens + 60`; past the guard
the subtraction is non-negative so ℕ subtraction agrees. -/
def splitOversized (C : Chunker) (content header sectionName : Str) :
    List (Str × Str) :=
  if C.countTokens content ≤ C.max_tokens then [(sectionName, content)]
  else
    let hn :=
      if header ≠ [] ∧ header.isPrefixOf content then
        (header, pstrip (content.drop header.length))
      else (([] : Str), content)
    let header' := hn.1
    let sectionBody := hn.2
    let headerTokens := if header' ≠ [] then C.countTokens header' else 0
    if C.max_tokens < headerTokens + 60 then [(sectionName, content)]
    else
      let avail := C.max_tokens - headerTokens - 10
      let sentences := splitSentences sectionBody
      if sentences = [] then [(sectionName, content)]
      else
        let st := sentLoop C.countTokens avail header' sectionName sentences
          ⟨[], [], 0, 1⟩
        -- last chunk (lines 141-148)
        let withLast :=
          if st.cur ≠ [] then
            let body := joinSp st.cur
            if MIN_SPLIT_CONTENT_SIZE ≤ body.length ∨ st.chunks = [] then
              let finalName :=
                if st.partNum = 1 then sectionName else partName sectionName st.partNum
              st.chunks ++ [(finalName, withHeader body header')]
            else st.chunks
          else st.chunks
        -- single chunk fix (lines 150-152)
        let fixed :=
          match withLast with
          | [only] => [(sectionName, only.2)]
          | l => l
        orWhole fixed sectionName content

/-- `Chunker._create_chunk`. -/
def createChunk (C : Chunker) (doc : Document) (content : Str) (index : Nat)
    (sectionName : Option Str) : Chunk :=
  let datePart :=
    match doc.date with
    | some d => d
    | none => 'h' :: C.md5hex8 doc.source_file
  { id := doc.patient_id ++ '_' :: doc.doc_type ++ '_' :: datePart ++ '_' ::
        natDecimal index,
    content := pstrip content,
    metadata :=
      { patient_id := doc.patient_id, doc_type := doc.doc_type,
        date := doc.date, source_file := doc.source_file,
        sectionName := sectionName } }

/-- Chunk-creation loop shared by the SOAP and section strategies
(`for split_name, split_content in split_chunks: chunks.append(
self._create_chunk(doc, split_content, len(chunks), split_name))`). -/
def appendPieces (C : Chunker) (doc : Document) (chunks : List Chunk)
    (pieces : List (Str × Str)) : List Chunk :=
  pieces.foldl
    (fun acc piece => acc ++ [createChunk C doc piece.2 acc.length (some piece.1)])
    chunks

/-- The `soap_patterns` table: (start keywords, end keywords, name). -/
def soapPatterns : List (List Str × List Str × Str) :=
  [(["Chief Complaint:".data], ["Subjective:".data], "chief_complaint".data),
   (["Subjective:".data], ["Objective:".data], "subjective".data),
   (["Objective:".data], ["Assessment/Plan:".data, "Assessment:".data],
    "objective".data),
   (["Assessment/Plan:".data, "Assessment:".data],
    ["Electronically signed".data], "assessment_plan".data)]

/-- The small-section merge loop of `_chunk_by_soap_sections`
(lines 241-263); returns (`merged_sections`, `pending_small`). -/
def soapMerge (minSize : Nat) :
    List (Str × Str) → List (Str × Str) → Option (Str × Str) →
    List (Str × Str) × Option (Str × Str)
  | [], merged, pending => (merged, pending)
  | (name, sc) :: rest, merged, pending =>
    if sc.length < minSize then
      match pending with
      | some p =>
        soapMerge minSize rest merged
          (some (p.1 ++ '_' :: name, p.2 ++ '\n' :: '\n' :: sc))
      | none => soapMerge minSize rest merged (some (name, sc))
    else
      match pending with
      | some p =>
        soapMerge minSize rest
          (merged ++ [(p.1 ++ '_' :: name, p.2 ++ '\n' :: '\n' :: sc)]) none
      | none => soapMerge minSize rest (merged ++ [(name, sc)]) none

/-- Trailing small section handling of `_chunk_by_soap_sections`
(lines 266-276). -/
def soapTrailing (merged : List (Str × Str)) (pending : Option (Str × Str)) :
    List (Str × Str) :=
  match pending with
  | none => merged
  | some p =>
    match merged.getLast? with
    | some last =>
      merged.dropLast ++ [(last.1 ++ '_' :: p.1, last.2 ++ '\n' :: '\n' :: p.2)]
    | none => [p]

/-- `Chunker._chunk_by_soap_sections`. -/
def chunkBySoap (C : Chunker) (doc : Document) : List Chunk :=
  let content := doc.content
  let hb := extractHeader content
  let header := hb.1
  let body := hb.2
  let raw := soapPatterns.filterMap (fun pat =>
    match extractSoapSection pat.1 pat.2.1 body with
    | none => none
    | some m =>
      let sc := pstrip m
      if sc ≠ [] then some (pat.2.2, sc) else none)
  let mp := soapMerge C.min_chunk_size raw [] none
  let mergedSections := soapTrailing mp.1 mp.2
  let chunks := mergedSections.foldl
    (fun acc s =>
      appendPieces C doc acc (splitOversized C (withHeader s.2 header) header s.1))
    []
  if chunks = [] then [createChunk C doc content 0 none] else chunks

/-! ### header-delimited sections (`_split_by_section_headers`) -/

/-- Character class `[A-Z0-9\s\-_/]` of the section-name pattern. -/
def nameClassChar (c : Char) : Bool :=
  ('A' ≤ c ∧ c ≤ 'Z') || ('0' ≤ c ∧ c ≤ '9') || isWS c || c = '-' || c = '_' ||
  c = '/'

/-- Match `\n={60,}\n` at the head of `s`; returns consumed length.
(`={60,}` is greedy and `'='` differs from `'\n'`, so the maximal run is
the only candidate.) -/
def matchCloseDelim (s : Str) : Option Nat :=
  match s with
  | '\n' :: rest =>
    let eqs := rest.takeWhile (fun c => c = '=')
    if 60 ≤ eqs.length then
      match rest.drop eqs.length with
      | '\n' :: _ => some (1 + eqs.length + 1)
      | _ => none
    else none
  | _ => none

/-- Match `\s*\([^)]*\)` followed by `\n={60,}\n` at the head of `s`;
returns (length of the paren part, length of the closing part). -/
def matchParenThenClose (s : Str) : Option (Nat × Nat) :=
  let ws := s.takeWhile isWS
  match s.drop ws.length with
  | '(' :: rest2 =>
    let body := rest2.takeWhile (fun c => c ≠ ')')
    match rest2.drop body.length with
    | ')' :: rest3 =>
      match matchCloseDelim rest3 with
      | some cl => some (ws.length + 1 + body.length + 1, cl)
      | none => none
    | _ => none
  | _ => none

/-- Backtracking over the greedy `[A-Z0-9\s\-_/]*` of the section-name
group: `run` is the maximal class run after the first `[A-Z]` character,
`rest` the text after it.  For `k` descending, try the optional paren
group first, then the bare closing delimiter.  Returns
(`group(1)` text, characters consumed from the first name char on). -/
def nameAttempt (firstChar : Char) (run rest : Str) (k : Nat) :
    Option (Str × Nat) :=
  let remaining := run.drop k ++ rest
  match matchParenThenClose remaining with
  | some pc => some (firstChar :: (run.take k ++ remaining.take pc.1),
                     1 + k + pc.1 + pc.2)
  | none =>
    match matchCloseDelim remaining with
    | some cl => some (firstChar :: run.take k, 1 + k + cl)
    | none => none

def nameBacktrack (firstChar : Char) (run rest : Str) : Nat → Option (Str × Nat)
  | 0 => nameAttempt firstChar run rest 0
  | k + 1 =>
    match nameAttempt firstChar run rest (k + 1) with
    | some r => some r
    | none => nameBacktrack firstChar run rest k

/-- Match the full section-header pattern
`={60,}\n([A-Z][A-Z0-9\s\-_/]*(?:\s*\([^)]*\))?)\n={60,}\n` at the head
of `s`; returns (`group(1)`, total match length). -/
def matchSectionHeaderAt (s : Str) : Option (Str × Nat) :=
  let eqs := s.takeWhile (fun c => c = '=')
  if 60 ≤ eqs.length then
    match s.drop eqs.length with
    | '\n' :: rest =>
      match rest with
      | c :: rest2 =>
        if 'A' ≤ c ∧ c ≤ 'Z' then
          let run := rest2.takeWhile nameClassChar
          match nameBacktrack c run (rest2.drop run.length) run.length with
          | some nm => some (nm.1, eqs.length + 1 + nm.2)
          | none => none
        else none
      | [] => none
    | _ => none
  else none

/-- `re.finditer` over the section-header pattern: leftmost,
non-overlapping matches; returns (start, end, `group(1)`) triples.
Fuel-driven so the kernel can evaluate it (every match consumes ≥ 62
characters). -/
def findSectionHeaders : Nat → Str → Nat → List (Nat × Nat × Str)
  | 0, _, _ => []
  | fuel + 1, s, pos =>
    match s with
    | [] => []
    | _ :: rest =>
      match matchSectionHeaderAt s with
      | some nm =>
        (pos, pos + nm.2, nm.1) ::
          findSectionHeaders fuel (s.drop nm.2) (pos + nm.2)
      | none => findSectionHeaders fuel rest (pos + 1)

/-- Leftmost match of `\n={60,}\s*$` in `sc` (the `'\n'`, a maximal run
of ≥ 60 `'='`, and only whitespace to the end), as an index. -/
def trailingDelimIdx : Str → Nat → Option Nat
  | [], _ => none
  | '\n' :: rest, i =>
    let eqs := rest.takeWhile (fun c => c = '=')
    if 60 ≤ eqs.length ∧ (rest.drop eqs.length).all isWS then some i
    else trailingDelimIdx rest (i + 1)
  | _ :: rest, i => trailingDelimIdx rest (i + 1)

/-- `re.sub(r"\n={60,}\s*$", "", sc)`. -/
def cleanTrailingDelim (sc : Str) : Str :=
  match trailingDelimIdx sc 0 with
  | some i => sc.take i
  | none => sc

/-- The `for i, match in enumerate(matches)` loop of
`_split_by_section_headers` (lines 346-356). -/
def sectionsFromMatches (content : Str) :
    List (Nat × Nat × Str) → List (Str × Str)
  | [] => []
  | m :: rest =>
    let endPos :=
      match rest with
      | m2 :: _ => m2.1
      | [] => content.length
    let sc := pstrip ((content.drop m.2.1).take (endPos - m.2.1))
    let sc2 := pstrip (cleanTrailingDelim sc)
    if sc2 ≠ [] then (pstrip m.2.2, sc2) :: sectionsFromMatches content rest
    else sectionsFromMatches content rest

/-- `f"[{name}]\n{content}"`. -/
def bracketTag (name content : Str) : Str :=
  '[' :: name ++ ']' :: '\n' :: content

/-- The loop of `_merge_small_sections` (lines 372-402); returns
(`merged`, `pending_small`). -/
def mergeSmallGo :
    List (Str × Str) → List (Str × Str) → List (Str × Str) →
    List (Str × Str) × List (Str × Str)
  | [], merged, pending => (merged, pending)
  | (name, content) :: rest, merged, pending =>
    let isSmall := content.length < SMALL_SECTION_THRESHOLD
    let isLast := rest = []
    if isSmall ∧ ¬isLast then
      mergeSmallGo rest merged (pending ++ [(name, content)])
    else if pending ≠ [] then
      let parts := pending.map (fun p => bracketTag p.1 p.2) ++
        [bracketTag name content]
      let names := pending.map (fun p => p.1)
      let mergedName :=
        if names ≠ [] then joinWith " + ".data names ++ " + ".data ++ name
        else name
      mergeSmallGo rest (merged ++ [(mergedName, joinWith "\n\n".data parts)]) []
    else if isSmall ∧ isLast ∧ merged ≠ [] then
      match merged.getLast? with
      | some last =>
        mergeSmallGo rest
          (merged.dropLast ++
            [(last.1 ++ " + ".data ++ name,
              last.2 ++ '\n' :: '\n' :: bracketTag name content)]) []
      | none => mergeSmallGo rest (merged ++ [(name, content)]) []
    else mergeSmallGo rest (merged ++ [(name, content)]) []

/-- `Chunker._merge_small_sections`. -/
def mergeSmallSections (sections : List (Str × Str)) : List (Str × Str) :=
  if sections = [] then sections
  else
    let mp := mergeSmallGo sections [] []
    if mp.2 ≠ [] ∧ mp.1 = [] then
      [(joinWith " + ".data (mp.2.map (fun p => p.1)),
        joinWith "\n\n".data (mp.2.map (fun p => bracketTag p.1 p.2)))]
    else mp.1

/-- `Chunker._split_by_section_headers`. -/
def splitBySectionHeaders (content : Str) : List (Str × Str) :=
  mergeSmallSections
    (sectionsFromMatches content (findSectionHeaders content.length content 0))

/-- Does the whole string match `\s*\([^)]*\)\s*$`? -/
def parenSuffixAt (s : Str) : Bool :=
  match s.dropWhile isWS with
  | '(' :: rest =>
    let body := rest.takeWhile (fun c => c ≠ ')')
    match rest.drop body.length with
    | ')' :: rest2 => rest2.all isWS
    | _ => false
  | _ => false

def removeTrailingParenGo (orig : Str) : Str → Nat → Str
  | [], _ => orig
  | s :: rest, i =>
    if parenSuffixAt (s :: rest) then orig.take i
    else removeTrailingParenGo orig rest (i + 1)

/-- `re.sub(r"\s*\([^)]*\)\s*$", "", section_name)`. -/
def removeTrailingParen (s : Str) : Str := removeTrailingParenGo s s 0

def isLowerDigit (c : Char) : Bool :=
  ('a' ≤ c ∧ c ≤ 'z') || ('0' ≤ c ∧ c ≤ '9')

/-- `re.sub(r"[^a-z0-9]+", "_", s)`: each maximal run of other
characters becomes one `'_'` (`inRun` tracks being inside such a run). -/
def collapseNonAlnumGo : Str → Bool → Str
  | [], _ => []
  | c :: rest, inRun =>
    if isLowerDigit c then c :: collapseNonAlnumGo rest false
    else if inRun then collapseNonAlnumGo rest true
    else '_' :: collapseNonAlnumGo rest true

/-- Python `.strip("_")`. -/
def stripUnderscore (s : Str) : Str :=
  ((s.dropWhile (fun c => c = '_')).reverse.dropWhile (fun c => c = '_')).reverse

/-- Character class `[A-Z\s\-_/]` of the marker pattern. -/
def markerClassChar (c : Char) : Bool :=
  ('A' ≤ c ∧ c ≤ 'Z') || isWS c || c = '-' || c = '_' || c = '/'

/-- `re.match(r"^\[[A-Z][A-Z\s\-_/]+\]", section_content)`. -/
def hasMarkers (sc : Str) : Bool :=
  match sc with
  | '[' :: c :: rest =>
    if 'A' ≤ c ∧ c ≤ 'Z' then
      let run := rest.takeWhile markerClassChar
      match rest.drop run.length with
      | ']' :: _ => 1 ≤ run.length
      | _ => false
    else false
  | _ => false

/-- `Chunker._chunk_by_sections` (also `_chunk_by_hra_sections`,
`_chunk_by_lab_panels`, `_chunk_by_delimited_sections`, which are
aliases for it). -/
def chunkBySections (C : Chunker) (doc : Document) : List Chunk :=
  let content := doc.content
  let header := (extractHeader content).1
  let sections := splitBySectionHeaders content
  let chunks := sections.foldl
    (fun acc s =>
      let cleanName := pstrip (removeTrailingParen s.1)
      let normalized := stripUnderscore (collapseNonAlnumGo (lowerStr cleanName) false)
      let chunkContent :=
        if hasMarkers s.2 then withHeader s.2 header
        else withHeader (bracketTag cleanName s.2) header
      appendPieces C doc acc (splitOversized C chunkContent header normalized))
    []
  if chunks = [] then [createChunk C doc content 0 none] else chunks

/-! ### semantic/paragraph strategy -/

/-- The backward accumulation loop of `_get_overlap_text`
(lines 431-442, sentences already reversed).  Python `sent[-(target):]`
is the whole string when `target = 0` (since `s[-0:] = s`). -/
def overlapBuild (target : Nat) : List Str → List Str → Nat → Str
  | [], parts, _ => joinSp parts
  | sent :: rest, parts, curLen =>
    if curLen + sent.length + 1 ≤ target then
      overlapBuild target rest (sent :: parts) (curLen + sent.length + 1)
    else if parts = [] then
      if target = 0 then sent else sent.drop (sent.length - target)
    else joinSp parts

/-- `Chunker._get_overlap_text`. -/
def getOverlapText (text : Str) (target : Nat) : Str :=
  if text.length ≤ target then text
  else
    let sentences := splitSentences text
    if sentences = [] then text.drop (text.length - target)
    else overlapBuild target sentences.reverse [] 0

/-- The inner sentence loop of `_semantic_chunk` (lines 475-482). -/
def semSentLoop (C : Chunker) (doc : Document) :
    List Str → List Chunk → Str → List Chunk × Str
  | [], chunks, cur => (chunks, cur)
  | sent :: rest, chunks, cur =>
    if C.max_chunk_size < cur.length + sent.length + 1 then
      let chunks' :=
        if cur ≠ [] then chunks ++ [createChunk C doc cur chunks.length none]
        else chunks
      semSentLoop C doc rest chunks' sent
    else
      semSentLoop C doc rest chunks
        (if cur ≠ [] then cur ++ ' ' :: sent else sent)

/-- The paragraph loop of `_semantic_chunk` (lines 458-484). -/
def semLoop (C : Chunker) (doc : Document) :
    List Str → List Chunk → Str → List Chunk × Str
  | [], chunks, cur => (chunks, cur)
  | p :: rest, chunks, cur =>
    let para := pstrip p
    if para = [] then semLoop C doc rest chunks cur
    else if C.max_chunk_size < cur.length + para.length + 2 then
      if cur ≠ [] then
        let chunks' := chunks ++ [createChunk C doc cur chunks.length none]
        let cur' :=
          if 0 < C.overlap_size then
            getOverlapText cur C.overlap_size ++ '\n' :: '\n' :: para
          else para
        semLoop C doc rest chunks' cur'
      else
        let sc := semSentLoop C doc (splitSentences para) chunks cur
        semLoop C doc rest sc.1 sc.2
    else
      semLoop C doc rest chunks
        (if cur ≠ [] then cur ++ '\n' :: '\n' :: para else para)

/-- `Chunker._semantic_chunk`. -/
def semanticChunk (C : Chunker) (doc : Document) : List Chunk :=
  let content := pstrip doc.content
  if content.length ≤ C.max_chunk_size then [createChunk C doc content 0 none]
  else
    let st := semLoop C doc (splitParagraphs content) [] []
    let chunks := st.1
    let cur := st.2
    let chunks' :=
      if cur ≠ [] ∧ C.min_chunk_size ≤ cur.length then
        chunks ++ [createChunk C doc cur chunks.length none]
      else if cur ≠ [] ∧ chunks ≠ [] then
        match chunks.getLast? with
        | some last =>
          chunks.dropLast ++
            [createChunk C doc (last.content ++ '\n' :: '\n' :: cur)
              (chunks.length - 1) none]
        | none => chunks
      else if cur ≠ [] then chunks ++ [createChunk C doc cur 0 none]
      else chunks
    if chunks' = [] then [createChunk C doc content 0 none] else chunks'

/-- `Chunker.chunk_document` — strategy dispatch by `doc_type`. -/
def chunkDocument (C : Chunker) (doc : Document) : List Chunk :=
  if doc.doc_type = "progress_note".data then chunkBySoap C doc
  else if doc.doc_type = "hra".data then chunkBySections C doc
  else if doc.doc_type = "lab".data then chunkBySections C doc
  else if doc.doc_type = "cardiology_consult".data ∨
      doc.doc_type = "sleep_study".data ∨
      doc.doc_type = "other_consult".data ∨
      doc.doc_type = "imaging".data then chunkBySections C doc
  else if doc.doc_type = "prior_year_problems".data then chunkBySections C doc
  else semanticChunk C doc

/-! ## `retrieval/fts.py` — `FTSStore`

SQLite is modelled logically: the `chunks` table (with `chunk_id TEXT
PRIMARY KEY`) is a list of rows on which `INSERT OR REPLACE` deletes the
conflicting row and appends the new one; the `chunks_fts` FTS5 virtual
table declares no uniqueness on `chunk_id`, so `INSERT OR REPLACE` (which
can only conflict on the unspecified rowid) plainly appends.  The FTS5
`MATCH`/`bm25` engine is a parameter `matchRank : query → row → Option ℚ`
returning the raw bm25 value (lower is better) of a matching row, and
`snippet(...)` is a parameter `snip`. -/

structure FTSRow where
  chunk_id : Str
  content : Str
  patient_id : Str
  doc_type : Str
  date : Option Str
  source_file : Str
  /-- the `section` column. -/
  sect : Str
deriving DecidableEq, Repr

structure FTSStoreM where
  rows : List FTSRow
  ftsRows : List FTSRow
deriving DecidableEq, Repr

def emptyFTSStore : FTSStoreM := { rows := [], ftsRows := [] }

/-- The row bound by `FTSStore.add_chunks` for one chunk
(`metadata.get(..., "")` defaults). -/
def rowOfChunk (c : Chunk) : FTSRow :=
  { chunk_id := c.id, content := c.content,
    patient_id := c.metadata.patient_id, doc_type := c.metadata.doc_type,
    date := c.metadata.date, source_file := c.metadata.source_file,
    sect := c.metadata.sectionName.getD [] }

/-- `INSERT OR REPLACE` into a table with `chunk_id` as primary key. -/
def upsertRow (rows : List FTSRow) (r : FTSRow) : List FTSRow :=
  rows.filter (fun x => x.chunk_id ≠ r.chunk_id) ++ [r]

/-- `FTSStore.add_chunks`. -/
def ftsAddChunks (st : FTSStoreM) (chunks : List Chunk) : FTSStoreM :=
  chunks.foldl
    (fun st c =>
      { rows := upsertRow st.rows (rowOfChunk c),
        ftsRows := st.ftsRows ++ [rowOfChunk c] })
    st

/-- `FTSStore.count` (`SELECT COUNT(*) FROM chunks`). -/
def ftsCount (st : FTSStoreM) : Nat := st.rows.length

/-- Python truthiness of an `Optional[str]`. -/
def truthy : Option Str → Bool
  | none => false
  | some s => s ≠ []

/-- `FTSStore._escape_query`. -/
def escapeQuery (q : Str) : Str :=
  let escaped := q.map (fun c =>
    if c = '"' ∨ c = '\'' ∨ c = '(' ∨ c = ')' ∨ c = '*' ∨ c = ':' ∨ c = '^' ∨
        c = '-' then ' ' else c)
  let terms := wordSplit escaped
  match terms with
  | [] => []
  | [t] => t
  | ts => joinWith " OR ".data ts

structure FTSResult where
  chunk : Chunk
  score : ℚ
  snippet : Str
deriving DecidableEq, Repr

/-- The chunk rebuilt from a result row in `FTSStore.search`
(the `section` key is set only when the column is non-empty). -/
def chunkOfRow (r : FTSRow) : Chunk :=
  { id := r.chunk_id, content := r.content,
    metadata :=
      { patient_id := r.patient_id, doc_type := r.doc_type, date := r.date,
        source_file := r.source_file,
        sectionName := if r.sect ≠ [] then some r.sect else none } }

/-- `FTSStore.search`.  The SQL `ORDER BY score` (ascending bm25, ties
in an engine-chosen order modelled as the stable row order),
`LIMIT top_k`, and the final negation of bm25 so that higher is
better. -/
def ftsSearch (matchRank : Str → FTSRow → Option ℚ) (snip : Str → FTSRow → Str)
    (st : FTSStoreM) (query : Str) (top_k : Nat) (patient_id : Option Str) :
    List FTSResult :=
  let fts_query := escapeQuery query
  if pstrip fts_query = [] then []
  else
    let scored := st.ftsRows.filterMap (fun r =>
      match matchRank fts_query r with
      | some s =>
        if truthy patient_id then
          if r.patient_id = patient_id.getD [] then some (r, s) else none
        else some (r, s)
      | none => none)
    let sorted := scored.insertionSort (fun a b => a.2 ≤ b.2)
    (sorted.take top_k).map (fun rs =>
      { chunk := chunkOfRow rs.1, score := -rs.2, snippet := snip fts_query rs.1 })

/-! ## `retrieval/vector.py` — `VectorStore`

The sentence-transformers embedder and the FAISS `IndexFlatIP` are
external: `embed` maps (model name, text) to the normalized embedding
and `faissSearch` maps (index vectors, query embedding, k) to the
`(score, index)` pairs FAISS returns (it pads with index `-1` when fewer
than `k` vectors exist, hence `Int`). -/

abbrev Emb := List ℚ

structure VectorExt where
  embed : Str → Str → Emb
  faissSearch : List Emb → Emb → Nat → List (ℚ × Int)
  /-- `get_sentence_embedding_dimension()` of a model. -/
  dim : Str → Nat

structure VectorStoreM where
  embedding_model_name : Str
  index : Option (List Emb)
  chunks : List Chunk
  chunk_to_idx : List (Str × Nat)
  dimension : Option Nat

def freshVectorStore (model : Str) : VectorStoreM :=
  { embedding_model_name := model, index := none, chunks := [],
    chunk_to_idx := [], dimension := none }

/-- Python dict assignment `m[k] = v` (overwrite keeps the key's
original position; a new key goes last). -/
def dictSet {α : Type} (m : List (Str × α)) (k : Str) (v : α) :
    List (Str × α) :=
  if m.any (fun p => p.1 = k) then
    m.map (fun p => if p.1 = k then (k, v) else p)
  else m ++ [(k, v)]

def dictGet {α : Type} : List (Str × α) → Str → Option α
  | [], _ => none
  | p :: rest, k => if p.1 = k then some p.2 else dictGet rest k

/-- `VectorStore.add_chunks`. -/
def vectorAddChunks (ext : VectorExt) (vs : VectorStoreM)
    (chunks : List Chunk) : VectorStoreM :=
  if chunks = [] then vs
  else
    let vs :=
      if vs.index = none then
        { vs with
          index := some ([] : List Emb),
          dimension := some (ext.dim vs.embedding_model_name) }
      else vs
    let embeddings := chunks.map (fun c => ext.embed vs.embedding_model_name c.content)
    let start_idx := vs.chunks.length
    { vs with
      index := some (vs.index.getD [] ++ embeddings),
      chunks := vs.chunks ++ chunks,
      chunk_to_idx := chunks.enum.foldl
        (fun m ic => dictSet m ic.2.id (start_idx + ic.1)) vs.chunk_to_idx }

structure VSearchResult where
  chunk : Chunk
  score : ℚ
deriving DecidableEq, Repr

/-- The result loop of `VectorStore.search` (lines 87-101), including
the early `break` at `top_k` results.  An out-of-range FAISS index
(impossible for a well-formed index) is skipped. -/
def vresLoop (chunks : List Chunk) (patient_id : Option Str) (min_score : ℚ)
    (top_k : Nat) : List (ℚ × Int) → List VSearchResult → List VSearchResult
  | [], acc => acc
  | si :: rest, acc =>
    if si.2 < 0 ∨ si.1 < min_score then
      vresLoop chunks patient_id min_score top_k rest acc
    else
      match chunks.get? si.2.toNat with
      | none => vresLoop chunks patient_id min_score top_k rest acc
      | some chunk =>
        if truthy patient_id ∧ chunk.metadata.patient_id ≠ patient_id.getD [] then
          vresLoop chunks patient_id min_score top_k rest acc
        else
          let acc' := acc ++ [⟨chunk, si.1⟩]
          if top_k ≤ acc'.length then acc'
          else vresLoop chunks patient_id min_score top_k rest acc'

/-- `VectorStore.search`. -/
def vectorSearch (ext : VectorExt) (vs : VectorStoreM) (query : Str)
    (top_k : Nat) (patient_id : Option Str) (min_score : ℚ := 0) :
    List VSearchResult :=
  match vs.index with
  | none => []
  | some iv =>
    if iv.length = 0 then []
    else
      let qe := ext.embed vs.embedding_model_name query
      let search_k := if truthy patient_id then top_k * 10 else top_k
      let hits := ext.faissSearch iv qe (min search_k iv.length)
      vresLoop vs.chunks patient_id min_score top_k hits []

structure VectorConfig where
  embedding_model : Str
  dimension : Option Nat
  num_chunks : Nat
deriving DecidableEq, Repr

/-- What `VectorStore.save` writes: `index.faiss` (only when an index
exists), `chunks.json` (id/content/metadata records, which JSON
round-trips), `config.json`. -/
structure SavedVector where
  indexFile : Option (List Emb)
  chunksJson : List Chunk
  config : VectorConfig

/-- `VectorStore.save`. -/
def vectorSave (vs : VectorStoreM) : SavedVector :=
  { indexFile := vs.index,
    chunksJson := vs.chunks,
    config :=
      { embedding_model := vs.embedding_model_name,
        dimension := vs.dimension, num_chunks := vs.chunks.length } }

/-- `VectorStore.load` (called on `vs`, normally a fresh instance):
restores the model name and dimension from `config.json`, reads
`index.faiss` if present (otherwise `self.index` is left as is), and
rebuilds `chunks` and `chunk_to_idx` from `chunks.json`. -/
def vectorLoad (saved : SavedVector) (vs : VectorStoreM) : VectorStoreM :=
  let vs1 := { vs with
    embedding_model_name := saved.config.embedding_model,
    dimension := saved.config.dimension }
  let vs2 :=
    match saved.indexFile with
    | some iv => { vs1 with index := some iv }
    | none => vs1
  { vs2 with
    chunks := saved.chunksJson,
    chunk_to_idx := saved.chunksJson.enum.foldl
      (fun m ic => dictSet m ic.2.id ic.1) [] }

/-! ## `retrieval/search.py` — `HybridSearch` and the facade -/

structure HybridResult where
  chunk : Chunk
  score : ℚ
  vector_score : Option ℚ
  fts_score : Option ℚ
  snippet : Option Str
deriving DecidableEq, Repr

/-- `HybridSearch` (its two stores and the fusion weights, which default
to `0.5`/`0.5`). -/
structure HybridSearchM where
  vector_store : VectorStoreM
  fts_store : FTSStoreM
  vector_weight : ℚ := 1/2
  fts_weight : ℚ := 1/2

/-- The external engines a search needs. -/
structure SearchExt where
  vext : VectorExt
  matchRank : Str → FTSRow → Option ℚ
  snip : Str → FTSRow → Str

/-- `HybridSearch._vector_search`. -/
def hvectorSearch (ext : SearchExt) (H : HybridSearchM) (query : Str)
    (top_k : Nat) (patient_id : Option Str) : List HybridResult :=
  (vectorSearch ext.vext H.vector_store query top_k patient_id 0).map
    (fun r => ⟨r.chunk, r.score, some r.score, none, none⟩)

/-- `HybridSearch._fts_search`. -/
def hftsSearch (ext : SearchExt) (H : HybridSearchM) (query : Str)
    (top_k : Nat) (patient_id : Option Str) : List HybridResult :=
  (ftsSearch ext.matchRank ext.snip H.fts_store query top_k patient_id).map
    (fun r => ⟨r.chunk, r.score, none, some r.score, some r.snippet⟩)

/-- Python `max(...)` over a non-empty list (the `else 1.0` default is
dead code, guarded by `if fts_results`). -/
def maxScore : List ℚ → ℚ
  | [] => 1
  | x :: xs => xs.foldl max x

/-- The fusion core of `HybridSearch._hybrid_search` (lines 97-139),
operating on the two sub-result lists.  CPython iterates
`set(vector_scores) | set(fts_scores)` in an unspecified hash order and
then sorts stably by score; the model fixes the union order (vector ids
first, then new fts ids), which pins tie order only. -/
def hybridFuse (vector_weight fts_weight : ℚ) (vres : List VSearchResult)
    (fres : List FTSResult) (top_k : Nat) : List HybridResult :=
  let vector_scores := vres.foldl (fun m r => dictSet m r.chunk.id r.score) []
  let chunks1 := vres.foldl (fun m r => dictSet m r.chunk.id r.chunk) []
  let fcs :=
    if fres ≠ [] then
      let max_fts := maxScore (fres.map (fun r => r.score))
      fres.foldl
        (fun fcs r =>
          let normalized := if 0 < max_fts then r.score / max_fts else 0
          (dictSet fcs.1 r.chunk.id normalized,
           dictSet fcs.2.1 r.chunk.id r.chunk,
           dictSet fcs.2.2 r.chunk.id r.snippet))
        (([] : List (Str × ℚ)), chunks1, ([] : List (Str × Str)))
    else (([] : List (Str × ℚ)), chunks1, ([] : List (Str × Str)))
  let fts_scores := fcs.1
  let chunksAll := fcs.2.1
  let snippets := fcs.2.2
  let all_ids := vector_scores.map (fun p => p.1) ++
    (fts_scores.map (fun p => p.1)).filter
      (fun k => ¬ (vector_scores.map (fun p => p.1)).contains k)
  let combined := all_ids.filterMap (fun cid =>
    let vs := (dictGet vector_scores cid).getD 0
    let fs := (dictGet fts_scores cid).getD 0
    let combined_score := vector_weight * vs + fts_weight * fs
    (dictGet chunksAll cid).map (fun ch =>
      ({ chunk := ch, score := combined_score,
         vector_score := if (dictGet vector_scores cid).isSome then some vs else none,
         fts_score := if (dictGet fts_scores cid).isSome then some fs else none,
         snippet := dictGet snippets cid } : HybridResult)))
  (combined.insertionSort (fun a b => b.score ≤ a.score)).take top_k

/-- `HybridSearch._hybrid_search`. -/
def hybridSearch (ext : SearchExt) (H : HybridSearchM) (query : Str)
    (top_k : Nat) (patient_id : Option Str) : List HybridResult :=
  let fetch_k := top_k * 2
  let vres := vectorSearch ext.vext H.vector_store query fetch_k patient_id 0
  let fres := ftsSearch ext.matchRank ext.snip H.fts_store query fetch_k patient_id
  hybridFuse H.vector_weight H.fts_weight vres fres top_k

/-- `HybridSearch.search` — mode dispatch (anything other than
`"vector"` and `"fts"` falls through to hybrid). -/
def hsearch (ext : SearchExt) (H : HybridSearchM) (query : Str) (top_k : Nat)
    (patient_id : Option Str) (mode : Str) : List HybridResult :=
  if mode = "vector".data then hvectorSearch ext H query top_k patient_id
  else if mode = "fts".data then hftsSearch ext H query top_k patient_id
  else hybridSearch ext H query top_k patient_id

/-- The `SearchIndex` facade state (its stores and the `HybridSearch`
it owns). -/
structure SearchIndexT where
  index_dir : Str
  embedding_model : Str
  hybrid : HybridSearchM

/-- `get_search_index` acting on the module global `_search_index`
(modelled as explicit state): returns the facade and the new global.
`construct` models `SearchIndex(index_dir=..., embedding_model=...)`;
`INDEX_DIR`/`EMBEDDING_MODEL` are the config defaults. -/
def getSearchIndex (construct : Str → Str → SearchIndexT)
    (INDEX_DIR EMBEDDING_MODEL : Str) (cache : Option SearchIndexT)
    (index_dir embedding_model : Option Str) :
    SearchIndexT × Option SearchIndexT :=
  match cache with
  | some idx => (idx, some idx)
  | none =>
    let d := index_dir.getD INDEX_DIR
    let m := embedding_model.getD EMBEDDING_MODEL
    let idx := construct d m
    (idx, some idx)

/-! ## Basic text lemmas -/

theorem dropWhile_all_iff (p : Char → Bool) (l : Str) :
    l.dropWhile p = [] ↔ ∀ c ∈ l, p c := by
  constructor
  · intro h c hc
    rcases (List.takeWhile_append_dropWhile (p := p) (l := l)).symm ▸ hc with hc'
    rw [h, List.append_nil] at hc'
    exact List.mem_takeWhile_imp hc'
  · intro h
    exact List.dropWhile_eq_nil_iff.mpr h

theorem pstrip_eq_nil_iff (s : Str) : pstrip s = [] ↔ containsNonWS s = false := by
  unfold pstrip containsNonWS
  rw [List.reverse_eq_nil_iff, dropWhile_all_iff]
  constructor
  · intro h
    simp only [List.any_eq_false, Bool.not_eq_true]
    intro c hc
    by_contra hws
    have hws' : isWS c = false := by
      cases hisw : isWS c
      · rfl
      · rw [hisw] at hws; exact absurd rfl hws
    have hdw : c ∈ s.dropWhile isWS := by
      by_contra hnot
      have : c ∈ s.takeWhile isWS ++ s.dropWhile isWS := by
        rw [List.takeWhile_append_dropWhile]; exact hc
      rcases List.mem_append.mp this with h1 | h2
      · exact absurd (List.mem_takeWhile_imp h1) (by simp [hws'])
      · exact hnot h2
    have hmem := h c (List.mem_reverse.mpr hdw)
    rw [hmem] at hws'
    cases hws'
  · intro h c hc
    have hc' : c ∈ s := by
      have := List.mem_reverse.mp hc
      exact List.dropWhile_subset _ this
    have := List.any_eq_false.mp h c hc'
    simpa using this

theorem containsNonWS_of_pstrip_ne {s : Str} (h : pstrip s ≠ []) :
    containsNonWS s = true := by
  by_contra hfalse
  exact h ((pstrip_eq_nil_iff s).mpr (by simpa using hfalse))

theorem pstrip_ne_of_containsNonWS {s : Str} (h : containsNonWS s = true) :
    pstrip s ≠ [] := by
  intro hnil
  rw [(pstrip_eq_nil_iff s).mp hnil] at h
  exact Bool.false_ne_true h

theorem containsNonWS_append (a b : Str) :
    containsNonWS (a ++ b) = (containsNonWS a || containsNonWS b) := by
  simp [containsNonWS]

theorem containsNonWS_dropWhile (p : Char → Bool) (hp : ∀ c, p c = true → isWS c = true)
    (l : Str) : containsNonWS (l.dropWhile p) = containsNonWS l := by
  induction l with
  | nil => rfl
  | cons c rest ih =>
    by_cases h : p c
    · rw [List.dropWhile_cons_of_pos h, ih]
      have : isWS c = true := hp c h
      simp [containsNonWS, this]
    · rw [List.dropWhile_cons_of_neg h]

theorem containsNonWS_reverse (l : Str) :
    containsNonWS l.reverse = containsNonWS l := by
  simp [containsNonWS]

theorem containsNonWS_pstrip (s : Str) :
    containsNonWS (pstrip s) = containsNonWS s := by
  unfold pstrip
  rw [containsNonWS_reverse, containsNonWS_dropWhile isWS (fun _ h => h),
    containsNonWS_reverse, containsNonWS_dropWhile isWS (fun _ h => h)]

/-- Non-empty strip of the original means non-empty strip of the
already-stripped content stored in a chunk. -/
theorem pstrip_pstrip_ne {s : Str} (h : containsNonWS s = true) :
    pstrip (pstrip s) ≠ [] := by
  apply pstrip_ne_of_containsNonWS
  rw [containsNonWS_pstrip]
  exact h

theorem NW_withHeader {c : Str} (h : containsNonWS c = true) (hd : Str) :
    containsNonWS (withHeader c hd) = true := by
  unfold withHeader
  split
  · rw [containsNonWS_append]
    have : containsNonWS ('\n' :: '\n' :: c) = true := by
      simpa [containsNonWS, isWS] using h
    simp [this]
  · exact h

theorem NW_joinWith_head {sep : Str} {l : List Str} {x : Str} (hx : x ∈ l)
    (h : containsNonWS x = true) : containsNonWS (joinWith sep l) = true := by
  induction l with
  | nil => cases hx
  | cons p ps ih =>
    rcases List.mem_cons.mp hx with hx | hx
    · subst hx
      simp [joinWith, containsNonWS_append, h]
    · have hmem : containsNonWS ((ps.map (fun q => sep ++ q)).flatten) = true := by
        have : sep ++ x ∈ ps.map (fun q => sep ++ q) := List.mem_map_of_mem _ hx
        have hsub : containsNonWS (sep ++ x) = true := by
          simp [containsNonWS_append, h]
        simp only [containsNonWS, List.any_eq_true] at hsub ⊢
        obtain ⟨c, hc1, hc2⟩ := hsub
        exact ⟨c, List.mem_flatten.mpr ⟨sep ++ x, this, hc1⟩, hc2⟩
      simp [joinWith, containsNonWS_append, hmem]

theorem NW_joinSp_head {l : List Str} {x : Str} (hx : x ∈ l)
    (h : containsNonWS x = true) : containsNonWS (joinSp l) = true :=
  NW_joinWith_head hx h

theorem NW_bracketTag (name content : Str) :
    containsNonWS (bracketTag name content) = true := by
  simp [bracketTag, containsNonWS, isWS]

theorem NW_cons (c : Char) (s : Str) :
    containsNonWS (c :: s) = (!isWS c || containsNonWS s) := by
  simp [containsNonWS]

theorem NW_append_left {a : Str} (h : containsNonWS a = true) (b : Str) :
    containsNonWS (a ++ b) = true := by
  rw [containsNonWS_append, h, Bool.true_or]

theorem NW_append_right {b : Str} (a : Str) (h : containsNonWS b = true) :
    containsNonWS (a ++ b) = true := by
  rw [containsNonWS_append, h, Bool.or_true]

theorem NW_punctHead {acc : Str} (h : punctHead acc = true) :
    containsNonWS acc = true := by
  cases acc with
  | nil => simp [punctHead] at h
  | cons c rest =>
    simp only [punctHead, Bool.or_eq_true, decide_eq_true_eq] at h
    rw [NW_cons]
    rcases h with (h | h) | h <;> subst h <;> rfl

/-- Does the string end in a non-whitespace character? -/
def lastNonWS (s : Str) : Bool :=
  match s.getLast? with
  | some c => !isWS c
  | none => false

theorem lastNonWS_cons (c : Char) (rest : Str) :
    lastNonWS (c :: rest) =
      if rest = [] then !isWS c else lastNonWS rest := by
  cases rest with
  | nil => rfl
  | cons d ds =>
    rw [if_neg (List.cons_ne_nil d ds)]
    simp [lastNonWS, List.getLast?]

theorem dropWhile_head_false (p : Char → Bool) :
    ∀ (l : Str) (c : Char) (cs : Str), l.dropWhile p = c :: cs →
      p c = false := by
  intro l
  induction l with
  | nil => intro c cs h; simp [List.dropWhile] at h
  | cons x xs ih =>
    intro c cs h
    rw [List.dropWhile_cons] at h
    by_cases hx : p x = true
    · rw [if_pos hx] at h
      exact ih c cs h
    · rw [if_neg hx] at h
      cases h
      exact Bool.not_eq_true _ ▸ hx

theorem lastNonWS_reverse_cons (c : Char) (cs : Str) :
    lastNonWS ((c :: cs).reverse) = !isWS c := by
  unfold lastNonWS
  rw [List.getLast?_reverse]
  rfl

theorem lastNonWS_pstrip {s : Str} (h : pstrip s ≠ []) :
    lastNonWS (pstrip s) = true := by
  unfold pstrip at h ⊢
  cases hd : ((s.dropWhile isWS).reverse.dropWhile isWS) with
  | nil => rw [hd] at h; simp at h
  | cons c cs =>
    rw [lastNonWS_reverse_cons, dropWhile_head_false isWS _ c cs hd]
    rfl

theorem ssGo_NW : ∀ s : Str,
    (∀ acc : Str,
      lastNonWS s = true ∨ (s = [] ∧ containsNonWS acc = true) →
      ∀ x ∈ ssGo s acc false, containsNonWS x = true) ∧
    (∀ acc : Str, lastNonWS s = true →
      ∀ x ∈ ssGo s acc true, containsNonWS x = true) := by
  intro s
  induction s with
  | nil =>
    constructor
    · intro acc h x hx
      rcases h with h | h
      · simp [lastNonWS] at h
      · simp only [ssGo, List.mem_singleton] at hx
        subst hx
        rw [containsNonWS_reverse]
        exact h.2
    · intro acc h
      simp [lastNonWS] at h
  | cons c rest ih =>
    constructor
    · intro acc h x hx
      have hlast : lastNonWS (c :: rest) = true := by
        rcases h with h | h
        · exact h
        · exact absurd h.1 (List.cons_ne_nil c rest)
      rw [show ssGo (c :: rest) acc false =
          (if isWS c ∧ punctHead acc then acc.reverse :: ssGo rest [] true
           else ssGo rest (c :: acc) false) from rfl] at hx
      by_cases hp : isWS c ∧ punctHead acc
      · rw [if_pos hp] at hx
        rcases List.mem_cons.mp hx with hx | hx
        · subst hx
          rw [containsNonWS_reverse]
          exact NW_punctHead hp.2
        · have hrest : rest ≠ [] := by
            intro hc
            subst hc
            rw [lastNonWS_cons, if_pos rfl, hp.1] at hlast
            simp at hlast
          have : lastNonWS rest = true := by
            rwa [lastNonWS_cons, if_neg hrest] at hlast
          exact (ih).2 [] this x hx
      · rw [if_neg hp] at hx
        by_cases hrest : rest = []
        · subst hrest
          refine (ih).1 (c :: acc) (Or.inr ⟨rfl, ?_⟩) x hx
          rw [lastNonWS_cons, if_pos rfl] at hlast
          rw [NW_cons, hlast, Bool.true_or]
        · have : lastNonWS rest = true := by
            rwa [lastNonWS_cons, if_neg hrest] at hlast
          exact (ih).1 (c :: acc) (Or.inl this) x hx
    · intro acc hlast x hx
      rw [show ssGo (c :: rest) acc true =
          (if isWS c then ssGo rest acc true else ssGo rest [c] false)
          from rfl] at hx
      by_cases hc : isWS c = true
      · rw [if_pos hc] at hx
        have hrest : rest ≠ [] := by
          intro hcon
          subst hcon
          rw [lastNonWS_cons, if_pos rfl, hc] at hlast
          simp at hlast
        have : lastNonWS rest = true := by
          rwa [lastNonWS_cons, if_neg hrest] at hlast
        exact (ih).2 acc this x hx
      · rw [if_neg hc] at hx
        by_cases hrest : rest = []
        · subst hrest
          refine (ih).1 [c] (Or.inr ⟨rfl, ?_⟩) x hx
          rw [NW_cons]
          rw [Bool.not_eq_true] at hc
          rw [hc]
          rfl
        · have : lastNonWS rest = true := by
            rwa [lastNonWS_cons, if_neg hrest] at hlast
          exact (ih).1 [c] (Or.inl this) x hx

theorem splitSentences_NW {s : Str} (h : lastNonWS s = true) :
    ∀ x ∈ splitSentences s, containsNonWS x = true :=
  (ssGo_NW s).1 [] (Or.inl h)

theorem wordSplit_NW : ∀ (s : Str), ∀ x ∈ wordSplit s,
    containsNonWS x = true := by
  intro s
  induction s with
  | nil => intro x hx; simp [wordSplit] at hx
  | cons c rest ih =>
    intro x hx
    by_cases hc : isWS c = true
    · have hrw : wordSplit (c :: rest) = wordSplit rest := by
        unfold wordSplit
        rw [if_pos hc]
        cases rest <;> rfl
      rw [hrw] at hx
      exact ih x hx
    · have hcnw : containsNonWS [c] = true := by
        rw [NW_cons, Bool.not_eq_true] at *
        rw [hc]
        rfl
      cases rest with
      | nil =>
        have hrw : wordSplit [c] = [[c]] := by
          unfold wordSplit
          rw [if_neg hc]
          rfl
        rw [hrw] at hx
        simp only [List.mem_singleton] at hx
        subst hx
        exact hcnw
      | cons d ds =>
        have hsplit : wordSplit (c :: d :: ds) =
            if isWS c then wordSplit (d :: ds)
            else
              (match wordSplit (d :: ds) with
               | [] => [[c]]
               | p :: ps =>
                 if isWS d then [c] :: p :: ps else (c :: p) :: ps) := rfl
        rw [hsplit, if_neg hc] at hx
        cases hws : wordSplit (d :: ds) with
        | nil =>
          rw [hws] at hx
          simp only [List.mem_singleton] at hx
          subst hx
          exact hcnw
        | cons p ps =>
          rw [hws] at hx
          simp only [] at hx
          by_cases hd : isWS d = true
          · rw [if_pos hd] at hx
            rcases List.mem_cons.mp hx with hx | hx
            · subst hx; exact hcnw
            · exact ih x (by rw [hws]; exact hx)
          · rw [if_neg hd] at hx
            rcases List.mem_cons.mp hx with hx | hx
            · subst hx
              rw [NW_cons, Bool.not_eq_true] at *
              rw [hc]
              rfl
            · refine ih x ?_
              rw [hws]
              exact List.mem_cons_of_mem p hx

theorem NW_joinSp_of_ne {l : List Str} (hne : l ≠ [])
    (h : ∀ x ∈ l, containsNonWS x = true) :
    containsNonWS (joinSp l) = true := by
  cases l with
  | nil => exact absurd rfl hne
  | cons a as =>
    exact NW_joinSp_head (List.mem_cons_self a as)
      (h a (List.mem_cons_self a as))

theorem wordLoop_NW (count : Str → Nat) (avail : Nat)
    (header sectionName : Str) :
    ∀ (ws wchunk : List Str) (wtok : Nat) (chunks : List (Str × Str))
      (part : Nat),
      (∀ p ∈ chunks, containsNonWS p.2 = true) →
      (∀ w ∈ wchunk, containsNonWS w = true) →
      (∀ w ∈ ws, containsNonWS w = true) →
      (∀ p ∈ (wordLoop count avail header sectionName ws wchunk wtok chunks
          part).1, containsNonWS p.2 = true) ∧
      (∀ w ∈ (wordLoop count avail header sectionName ws wchunk wtok chunks
          part).2.2, containsNonWS w = true) := by
  intro ws
  induction ws with
  | nil =>
    intro wchunk wtok chunks part hch hwc _
    exact ⟨hch, hwc⟩
  | cons w ws ih =>
    intro wchunk wtok chunks part hch hwc hws
    have hw : containsNonWS w = true := hws w (List.mem_cons_self w ws)
    have hws' : ∀ v ∈ ws, containsNonWS v = true :=
      fun v hv => hws v (List.mem_cons_of_mem w hv)
    simp only [wordLoop]
    by_cases hcond : avail < wtok + count w ∧ wchunk ≠ []
    · rw [if_pos hcond]
      refine ih [w] (count w) _ _ ?_ ?_ hws'
      · by_cases hlen : MIN_SPLIT_CONTENT_SIZE ≤ (joinSp wchunk).length
        · rw [if_pos hlen]
          intro p hp
          rcases List.mem_append.mp hp with hp | hp
          · exact hch p hp
          · rcases List.mem_singleton.mp hp with rfl
            exact NW_withHeader (NW_joinSp_of_ne hcond.2 hwc) header
        · rw [if_neg hlen]
          exact hch
      · intro v hv
        rcases List.mem_singleton.mp hv with rfl
        exact hw
    · rw [if_neg hcond]
      refine ih (wchunk ++ [w]) (wtok + count w) chunks part hch ?_ hws'
      intro v hv
      rcases List.mem_append.mp hv with hv | hv
      · exact hwc v hv
      · rcases List.mem_singleton.mp hv with rfl
        exact hw

theorem sentLoop_NW (count : Str → Nat) (avail : Nat)
    (header sectionName : Str) :
    ∀ (sents : List Str) (st : SplitState),
      (∀ p ∈ st.chunks, containsNonWS p.2 = true) →
      (∀ x ∈ st.cur, containsNonWS x = true) →
      (∀ p ∈ (sentLoop count avail header sectionName sents st).chunks,
        containsNonWS p.2 = true) ∧
      (∀ x ∈ (sentLoop count avail header sectionName sents st).cur,
        containsNonWS x = true) := by
  intro sents
  induction sents with
  | nil => intro st h1 h2; exact ⟨h1, h2⟩
  | cons s rest ih =>
    intro st h1 h2
    simp only [sentLoop]
    by_cases hemp : pstrip s = []
    · rw [if_pos hemp]
      exact ih st h1 h2
    · rw [if_neg hemp]
      have hsent : containsNonWS (pstrip s) = true := by
        rw [containsNonWS_pstrip]
        exact containsNonWS_of_pstrip_ne hemp
      have hpush : st.cur ≠ [] → ∀ (nm : Str),
          ∀ p ∈ st.chunks ++ [(nm, withHeader (joinSp st.cur) header)],
            containsNonWS p.2 = true := by
        intro hne nm p hp
        rcases List.mem_append.mp hp with hp | hp
        · exact h1 p hp
        · rcases List.mem_singleton.mp hp with rfl
          exact NW_withHeader (NW_joinSp_of_ne hne h2) header
      by_cases hlong : avail < count (pstrip s)
      · rw [if_pos hlong]
        have hsaved : ∀ p ∈ (if st.cur ≠ [] then
            (if MIN_SPLIT_CONTENT_SIZE ≤ (joinSp st.cur).length then
              (st.chunks ++ [(partName sectionName st.partNum,
                withHeader (joinSp st.cur) header)], st.partNum + 1)
             else (st.chunks, st.partNum))
            else (st.chunks, st.partNum)).1, containsNonWS p.2 = true := by
          by_cases hc1 : st.cur ≠ []
          · rw [if_pos hc1]
            by_cases hc2 :
                MIN_SPLIT_CONTENT_SIZE ≤ (joinSp st.cur).length
            · rw [if_pos hc2]
              exact hpush hc1 _
            · rw [if_neg hc2]
              exact h1
          · rw [if_neg hc1]
            exact h1
        generalize hSV : (if st.cur ≠ [] then
            (if MIN_SPLIT_CONTENT_SIZE ≤ (joinSp st.cur).length then
              (st.chunks ++ [(partName sectionName st.partNum,
                withHeader (joinSp st.cur) header)], st.partNum + 1)
             else (st.chunks, st.partNum))
            else (st.chunks, st.partNum)) = SV
        rw [hSV] at hsaved
        have hwres := wordLoop_NW count avail header sectionName
          (wordSplit (pstrip s)) [] 0 SV.1 SV.2 hsaved
          (fun v hv => absurd hv (List.not_mem_nil v))
          (wordSplit_NW (pstrip s))
        generalize hWR : wordLoop count avail header sectionName
          (wordSplit (pstrip s)) [] 0 SV.1 SV.2 = WR
        rw [hWR] at hwres
        refine ih _ hwres.1 ?_
        by_cases hnn : WR.2.2 ≠ []
        · rw [if_pos hnn]
          intro x hx
          rcases List.mem_singleton.mp hx with rfl
          exact NW_joinSp_of_ne hnn hwres.2
        · rw [if_neg hnn]
          intro x hx
          exact absurd hx (List.not_mem_nil x)
      · rw [if_neg hlong]
        by_cases hcond2 :
            avail < st.curTok + count (pstrip s) ∧ st.cur ≠ []
        · rw [if_pos hcond2]
          have hsaved : ∀ p ∈ (if MIN_SPLIT_CONTENT_SIZE ≤
              (joinSp st.cur).length then
              (st.chunks ++ [(partName sectionName st.partNum,
                withHeader (joinSp st.cur) header)], st.partNum + 1)
             else (st.chunks, st.partNum)).1, containsNonWS p.2 = true := by
            by_cases hc2 :
                MIN_SPLIT_CONTENT_SIZE ≤ (joinSp st.cur).length
            · rw [if_pos hc2]
              exact hpush hcond2.2 _
            · rw [if_neg hc2]
              exact h1
          refine ih _ hsaved ?_
          intro x hx
          rcases List.mem_append.mp hx with hx | hx
          · refine h2 x ?_
            by_cases h12 : 1 < st.cur.length
            · rw [if_pos h12] at hx
              exact List.mem_of_mem_drop hx
            · rw [if_neg h12] at hx
              exact List.mem_of_mem_drop hx
          · rcases List.mem_singleton.mp hx with rfl
            exact hsent
        · rw [if_neg hcond2]
          refine ih _ h1 ?_
          intro x hx
          rcases List.mem_append.mp hx with hx | hx
          · exact h2 x hx
          · rcases List.mem_singleton.mp hx with rfl
            exact hsent

theorem orWhole_match_NW (sectionName content : Str)
    (L : List (Str × Str)) (h : containsNonWS content = true)
    (hW : ∀ p ∈ L, containsNonWS p.2 = true) :
    ∀ p ∈ orWhole
        (match L with
         | [only] => [(sectionName, only.2)]
         | l => l) sectionName content,
      containsNonWS p.2 = true := by
  intro p hp
  cases L with
  | nil =>
    simp only [] at hp
    unfold orWhole at hp
    rw [if_pos rfl] at hp
    rcases List.mem_singleton.mp hp with rfl
    exact h
  | cons a as =>
    cases as with
    | nil =>
      simp only [] at hp
      unfold orWhole at hp
      rw [if_neg (List.cons_ne_nil _ _)] at hp
      rcases List.mem_singleton.mp hp with rfl
      exact hW a (List.mem_singleton_self a)
    | cons b bs =>
      simp only [] at hp
      unfold orWhole at hp
      rw [if_neg (List.cons_ne_nil _ _)] at hp
      exact hW p hp

theorem splitAssemble_NW (sectionName content header' : Str)
    (st : SplitState) (h : containsNonWS content = true)
    (h1 : ∀ p ∈ st.chunks, containsNonWS p.2 = true)
    (h2 : ∀ x ∈ st.cur, containsNonWS x = true) :
    ∀ p ∈ orWhole
        (match
          (if st.cur ≠ [] then
            (if MIN_SPLIT_CONTENT_SIZE ≤ (joinSp st.cur).length ∨
                st.chunks = [] then
              st.chunks ++
                [(if st.partNum = 1 then sectionName
                  else partName sectionName st.partNum,
                  withHeader (joinSp st.cur) header')]
            else st.chunks)
          else st.chunks) with
         | [only] => [(sectionName, only.2)]
         | l => l) sectionName content,
      containsNonWS p.2 = true := by
  refine orWhole_match_NW sectionName content _ h ?_
  by_cases hc : st.cur ≠ []
  · rw [if_pos hc]
    by_cases hb : MIN_SPLIT_CONTENT_SIZE ≤ (joinSp st.cur).length ∨
        st.chunks = []
    · rw [if_pos hb]
      intro p hp
      rcases List.mem_append.mp hp with hp | hp
      · exact h1 p hp
      · rcases List.mem_singleton.mp hp with rfl
        exact NW_withHeader (NW_joinSp_of_ne hc h2) header'
    · rw [if_neg hb]
      exact h1
  · rw [if_neg hc]
    exact h1

theorem splitOversized_NW (C : Chunker) {content : Str}
    (header sectionName : Str) (h : containsNonWS content = true) :
    ∀ p ∈ splitOversized C content header sectionName,
      containsNonWS p.2 = true := by
  intro p hp
  unfold splitOversized at hp
  simp only [] at hp
  by_cases h1 : C.countTokens content ≤ C.max_tokens
  · rw [if_pos h1] at hp
    rcases List.mem_singleton.mp hp with rfl
    exact h
  · rw [if_neg h1] at hp
    generalize (if header ≠ [] ∧ header.isPrefixOf content
        then (header, pstrip (content.drop header.length))
        else (([] : Str), content)) = hn at hp
    by_cases h2 : C.max_tokens <
        (if hn.1 ≠ [] then C.countTokens hn.1 else 0) + 60
    · rw [if_pos h2] at hp
      rcases List.mem_singleton.mp hp with rfl
      exact h
    · rw [if_neg h2] at hp
      by_cases h3 : splitSentences hn.2 = []
      · rw [if_pos h3] at hp
        rcases List.mem_singleton.mp hp with rfl
        exact h
      · rw [if_neg h3] at hp
        have hst := sentLoop_NW C.countTokens
          ((C.max_tokens -
            if hn.1 ≠ [] then C.countTokens hn.1 else 0) - 10)
          hn.1 sectionName (splitSentences hn.2) ⟨[], [], 0, 1⟩
          (fun q hq => absurd hq (List.not_mem_nil q))
          (fun x hx => absurd hx (List.not_mem_nil x))
        exact splitAssemble_NW sectionName content hn.1 _ h hst.1 hst.2 p hp

theorem NW_nn {sc : Str} (h : containsNonWS sc = true) (a : Str) :
    containsNonWS (a ++ '\n' :: '\n' :: sc) = true := by
  refine NW_append_right a ?_
  rw [NW_cons, NW_cons, h]
  simp

theorem mem_of_getLast?' {α : Type} :
    ∀ {l : List α} {a : α}, l.getLast? = some a → a ∈ l := by
  intro l
  induction l with
  | nil => intro a h; simp [List.getLast?] at h
  | cons x xs ih =>
    intro a h
    cases xs with
    | nil =>
      simp [List.getLast?] at h
      subst h
      exact List.mem_singleton_self x
    | cons y ys =>
      rw [List.getLast?_cons_cons] at h
      exact List.mem_cons_of_mem x (ih h)

theorem appendPieces_pstrip (C : Chunker) (doc : Document) :
    ∀ (pieces : List (Str × Str)) (chunks : List Chunk),
      (∀ c ∈ chunks, pstrip c.content ≠ []) →
      (∀ p ∈ pieces, containsNonWS p.2 = true) →
      ∀ c ∈ appendPieces C doc chunks pieces, pstrip c.content ≠ [] := by
  intro pieces
  induction pieces with
  | nil => intro chunks hch _ c hc; exact hch c hc
  | cons p ps ih =>
    intro chunks hch hpc c hc
    rw [show appendPieces C doc chunks (p :: ps) =
        appendPieces C doc
          (chunks ++ [createChunk C doc p.2 chunks.length (some p.1)]) ps
        from rfl] at hc
    refine ih _ ?_ (fun q hq => hpc q (List.mem_cons_of_mem p hq)) c hc
    intro d hd
    rcases List.mem_append.mp hd with hd | hd
    · exact hch d hd
    · rcases List.mem_singleton.mp hd with rfl
      show pstrip (pstrip p.2) ≠ []
      exact pstrip_pstrip_ne (hpc p (List.mem_cons_self p ps))

theorem soapMerge_NW (minSize : Nat) :
    ∀ (l merged : List (Str × Str)) (pending : Option (Str × Str)),
      (∀ r ∈ l, containsNonWS r.2 = true) →
      (∀ m ∈ merged, containsNonWS m.2 = true) →
      (∀ q : Str × Str, pending = some q → containsNonWS q.2 = true) →
      (∀ m ∈ (soapMerge minSize l merged pending).1,
        containsNonWS m.2 = true) ∧
      (∀ q : Str × Str, (soapMerge minSize l merged pending).2 = some q →
        containsNonWS q.2 = true) := by
  intro l
  induction l with
  | nil => intro merged pending _ hm hp; exact ⟨hm, hp⟩
  | cons r rest ih =>
    obtain ⟨name, sc⟩ := r
    intro merged pending hl hm hp
    have hsc : containsNonWS sc = true :=
      hl (name, sc) (List.mem_cons_self _ _)
    have hl' : ∀ x ∈ rest, containsNonWS x.2 = true :=
      fun x hx => hl x (List.mem_cons_of_mem _ hx)
    simp only [soapMerge]
    by_cases hsmall : sc.length < minSize
    · rw [if_pos hsmall]
      cases pending with
      | some p =>
        refine ih _ _ hl' hm ?_
        intro q hq
        injection hq with hq
        subst hq
        exact NW_nn hsc p.2
      | none =>
        refine ih _ _ hl' hm ?_
        intro q hq
        injection hq with hq
        subst hq
        exact hsc
    · rw [if_neg hsmall]
      cases pending with
      | some p =>
        refine ih _ none hl' ?_ (fun q hq => Option.noConfusion hq)
        intro m hmm
        rcases List.mem_append.mp hmm with hmm | hmm
        · exact hm m hmm
        · rcases List.mem_singleton.mp hmm with rfl
          exact NW_nn hsc p.2
      | none =>
        refine ih _ none hl' ?_ (fun q hq => Option.noConfusion hq)
        intro m hmm
        rcases List.mem_append.mp hmm with hmm | hmm
        · exact hm m hmm
        · rcases List.mem_singleton.mp hmm with rfl
          exact hsc

theorem soapTrailing_NW (merged : List (Str × Str))
    (pending : Option (Str × Str))
    (hm : ∀ m ∈ merged, containsNonWS m.2 = true)
    (hp : ∀ q : Str × Str, pending = some q → containsNonWS q.2 = true) :
    ∀ m ∈ soapTrailing merged pending, containsNonWS m.2 = true := by
  intro m hmm
  unfold soapTrailing at hmm
  cases pending with
  | none => exact hm m hmm
  | some p =>
    have hpp : containsNonWS p.2 = true := hp p rfl
    simp only [] at hmm
    cases hlast : merged.getLast? with
    | none =>
      rw [hlast] at hmm
      simp only [] at hmm
      rcases List.mem_singleton.mp hmm with rfl
      exact hpp
    | some last =>
      rw [hlast] at hmm
      simp only [] at hmm
      rcases List.mem_append.mp hmm with hmm | hmm
      · exact hm m (List.dropLast_subset _ hmm)
      · rcases List.mem_singleton.mp hmm with rfl
        exact NW_nn hpp last.2

theorem soapFold_pstrip (C : Chunker) (doc : Document) (header : Str) :
    ∀ (sections : List (Str × Str)) (acc : List Chunk),
      (∀ s ∈ sections, containsNonWS s.2 = true) →
      (∀ c ∈ acc, pstrip c.content ≠ []) →
      ∀ c ∈ sections.foldl
        (fun acc s =>
          appendPieces C doc acc
            (splitOversized C (withHeader s.2 header) header s.1)) acc,
        pstrip c.content ≠ [] := by
  intro sections
  induction sections with
  | nil => intro acc _ hacc c hc; exact hacc c hc
  | cons s rest ih =>
    intro acc hsec hacc c hc
    rw [List.foldl_cons] at hc
    refine ih _ (fun t ht => hsec t (List.mem_cons_of_mem s ht)) ?_ c hc
    exact appendPieces_pstrip C doc _ acc hacc
      (splitOversized_NW C header s.1
        (NW_withHeader (hsec s (List.mem_cons_self s rest)) header))

theorem chunkBySoap_NW (C : Chunker) (doc : Document)
    (h : containsNonWS doc.content = true) :
    1 ≤ (chunkBySoap C doc).length ∧
    ∀ c ∈ chunkBySoap C doc, pstrip c.content ≠ [] := by
  unfold chunkBySoap
  simp only []
  have hraw : ∀ r ∈ (soapPatterns.filterMap (fun pat =>
      match extractSoapSection pat.1 pat.2.1 (extractHeader doc.content).2 with
      | none => none
      | some mm =>
        if pstrip mm ≠ [] then some (pat.2.2, pstrip mm) else none)),
      containsNonWS r.2 = true := by
    intro r hr
    rcases List.mem_filterMap.mp hr with ⟨pat, _, hpat⟩
    cases hsec : extractSoapSection pat.1 pat.2.1
        (extractHeader doc.content).2 with
    | none => rw [hsec] at hpat; cases hpat
    | some mm =>
      rw [hsec] at hpat
      simp only [] at hpat
      by_cases hne : pstrip mm ≠ []
      · rw [if_pos hne] at hpat
        injection hpat with hpat
        subst hpat
        show containsNonWS (pstrip mm) = true
        rw [containsNonWS_pstrip]
        exact containsNonWS_of_pstrip_ne hne
      · rw [if_neg hne] at hpat
        cases hpat
  have hmp := soapMerge_NW C.min_chunk_size _ [] none hraw
    (fun m hm => absurd hm (List.not_mem_nil m))
    (fun q hq => Option.noConfusion hq)
  have hms := soapTrailing_NW _ _ hmp.1 hmp.2
  constructor
  · split
    · simp
    · rename_i hne
      exact List.length_pos.mpr hne
  · intro c hc
    split at hc
    · rcases List.mem_singleton.mp hc with rfl
      exact pstrip_pstrip_ne h
    · exact soapFold_pstrip C doc (extractHeader doc.content).1 _ [] hms
        (fun d hd => absurd hd (List.not_mem_nil d)) c hc

theorem sectionsFromMatches_NW (content : Str) :
    ∀ (ms : List (Nat × Nat × Str)),
      ∀ s ∈ sectionsFromMatches content ms, containsNonWS s.2 = true := by
  intro ms
  induction ms with
  | nil => intro s hs; simp [sectionsFromMatches] at hs
  | cons m rest ih =>
    intro s hs
    have hstep : ∀ endPos : Nat,
        s ∈ (if pstrip (cleanTrailingDelim (pstrip
              ((content.drop m.2.1).take (endPos - m.2.1)))) ≠ [] then
            (pstrip m.2.2, pstrip (cleanTrailingDelim (pstrip
              ((content.drop m.2.1).take (endPos - m.2.1))))) ::
              sectionsFromMatches content rest
          else sectionsFromMatches content rest) →
        containsNonWS s.2 = true := by
      intro endPos hs2
      by_cases hq : pstrip (cleanTrailingDelim (pstrip
          ((content.drop m.2.1).take (endPos - m.2.1)))) ≠ []
      · rw [if_pos hq] at hs2
        rcases List.mem_cons.mp hs2 with hs2 | hs2
        · subst hs2
          simp only []
          rw [containsNonWS_pstrip]
          exact containsNonWS_of_pstrip_ne hq
        · exact ih s hs2
      · rw [if_neg hq] at hs2
        exact ih s hs2
    simp only [sectionsFromMatches] at hs
    exact hstep _ hs

theorem mergeSmallGo_NW :
    ∀ (l merged pending : List (Str × Str)),
      (∀ s ∈ l, containsNonWS s.2 = true) →
      (∀ m ∈ merged, containsNonWS m.2 = true) →
      ∀ m ∈ (mergeSmallGo l merged pending).1,
        containsNonWS m.2 = true := by
  intro l
  induction l with
  | nil => intro merged pending _ hm m hmm; exact hm m hmm
  | cons r rest ih =>
    obtain ⟨name, content⟩ := r
    intro merged pending hl hm
    have hc : containsNonWS content = true :=
      hl (name, content) (List.mem_cons_self _ _)
    have hl' : ∀ s ∈ rest, containsNonWS s.2 = true :=
      fun s hs => hl s (List.mem_cons_of_mem _ hs)
    simp only [mergeSmallGo]
    by_cases h1 : content.length < SMALL_SECTION_THRESHOLD ∧ ¬rest = []
    · rw [if_pos h1]
      exact ih merged _ hl' hm
    · rw [if_neg h1]
      by_cases h2 : pending ≠ []
      · rw [if_pos h2]
        refine ih _ [] hl' ?_
        intro m hmm
        rcases List.mem_append.mp hmm with hmm | hmm
        · exact hm m hmm
        · rcases List.mem_singleton.mp hmm with rfl
          refine NW_joinWith_head (x := bracketTag name content) ?_
            (NW_bracketTag _ _)
          exact List.mem_append_right _ (List.mem_singleton_self _)
      · rw [if_neg h2]
        by_cases h3 : content.length < SMALL_SECTION_THRESHOLD ∧
            rest = [] ∧ merged ≠ []
        · rw [if_pos h3]
          cases hlast : merged.getLast? with
          | some last =>
            refine ih _ [] hl' ?_
            intro m hmm
            rcases List.mem_append.mp hmm with hmm | hmm
            · exact hm m (List.dropLast_subset _ hmm)
            · rcases List.mem_singleton.mp hmm with rfl
              exact NW_nn (NW_bracketTag name content) last.2
          | none =>
            refine ih _ [] hl' ?_
            intro m hmm
            rcases List.mem_append.mp hmm with hmm | hmm
            · exact hm m hmm
            · rcases List.mem_singleton.mp hmm with rfl
              exact hc
        · rw [if_neg h3]
          refine ih _ [] hl' ?_
          intro m hmm
          rcases List.mem_append.mp hmm with hmm | hmm
          · exact hm m hmm
          · rcases List.mem_singleton.mp hmm with rfl
            exact hc

theorem mergeSmallSections_NW (sections : List (Str × Str))
    (h : ∀ s ∈ sections, containsNonWS s.2 = true) :
    ∀ m ∈ mergeSmallSections sections, containsNonWS m.2 = true := by
  intro m hm
  unfold mergeSmallSections at hm
  by_cases h0 : sections = []
  · rw [if_pos h0] at hm
    rw [h0] at hm
    exact absurd hm (List.not_mem_nil m)
  · rw [if_neg h0] at hm
    simp only [] at hm
    by_cases h1 : (mergeSmallGo sections [] []).2 ≠ [] ∧
        (mergeSmallGo sections [] []).1 = []
    · rw [if_pos h1] at hm
      rcases List.mem_singleton.mp hm with rfl
      simp only []
      cases hp : (mergeSmallGo sections [] []).2 with
      | nil => exact absurd hp h1.1
      | cons a as =>
        refine NW_joinWith_head (x := bracketTag a.1 a.2) ?_
          (NW_bracketTag _ _)
        rw [List.map_cons]
        exact List.mem_cons_self _ _
    · rw [if_neg h1] at hm
      exact mergeSmallGo_NW sections [] [] h
        (fun x hx => absurd hx (List.not_mem_nil x)) m hm

theorem sectionsFold_pstrip (C : Chunker) (doc : Document) (header : Str) :
    ∀ (sections : List (Str × Str)) (acc : List Chunk),
      (∀ s ∈ sections, containsNonWS s.2 = true) →
      (∀ c ∈ acc, pstrip c.content ≠ []) →
      ∀ c ∈ sections.foldl
        (fun acc s =>
          appendPieces C doc acc
            (splitOversized C
              (if hasMarkers s.2 then withHeader s.2 header
               else withHeader
                 (bracketTag (pstrip (removeTrailingParen s.1)) s.2) header)
              header
              (stripUnderscore (collapseNonAlnumGo
                (lowerStr (pstrip (removeTrailingParen s.1))) false)))) acc,
        pstrip c.content ≠ [] := by
  intro sections
  induction sections with
  | nil => intro acc _ hacc c hc; exact hacc c hc
  | cons s rest ih =>
    intro acc hsec hacc c hc
    rw [List.foldl_cons] at hc
    refine ih _ (fun t ht => hsec t (List.mem_cons_of_mem s ht)) ?_ c hc
    refine appendPieces_pstrip C doc _ acc hacc
      (splitOversized_NW C header _ ?_)
    by_cases hM : hasMarkers s.2 = true
    · rw [if_pos hM]
      exact NW_withHeader (hsec s (List.mem_cons_self s rest)) header
    · rw [if_neg hM]
      exact NW_withHeader (NW_bracketTag _ _) header

theorem chunkBySections_NW (C : Chunker) (doc : Document)
    (h : containsNonWS doc.content = true) :
    1 ≤ (chunkBySections C doc).length ∧
    ∀ c ∈ chunkBySections C doc, pstrip c.content ≠ [] := by
  unfold chunkBySections
  simp only []
  have hsec : ∀ s ∈ splitBySectionHeaders doc.content,
      containsNonWS s.2 = true := by
    unfold splitBySectionHeaders
    exact mergeSmallSections_NW _ (sectionsFromMatches_NW doc.content _)
  constructor
  · split
    · simp
    · rename_i hne
      exact List.length_pos.mpr hne
  · intro c hc
    split at hc
    · rcases List.mem_singleton.mp hc with rfl
      exact pstrip_pstrip_ne h
    · exact sectionsFold_pstrip C doc (extractHeader doc.content).1 _ []
        hsec (fun d hd => absurd hd (List.not_mem_nil d)) c hc

theorem finalIf_len {α : Type} [DecidableEq α] (l : List α) (x : α) :
    1 ≤ (if l = [] then [x] else l).length := by
  by_cases h : l = []
  · rw [if_pos h]
    simp
  · rw [if_neg h]
    exact List.length_pos.mpr h

theorem finalIf_mem {l : List Chunk} {x : Chunk}
    (hl : ∀ c ∈ l, pstrip c.content ≠ [])
    (hx : pstrip x.content ≠ []) :
    ∀ c ∈ (if l = [] then [x] else l), pstrip c.content ≠ [] := by
  by_cases h : l = []
  · rw [if_pos h]
    intro c hc
    rcases List.mem_singleton.mp hc with rfl
    exact hx
  · rw [if_neg h]
    exact hl

theorem semSentLoop_NW (C : Chunker) (doc : Document) :
    ∀ (sents : List Str) (chunks : List Chunk) (cur : Str),
      (∀ x ∈ sents, containsNonWS x = true) →
      (∀ c ∈ chunks, pstrip c.content ≠ []) →
      (cur ≠ [] → containsNonWS cur = true) →
      (∀ c ∈ (semSentLoop C doc sents chunks cur).1,
        pstrip c.content ≠ []) ∧
      ((semSentLoop C doc sents chunks cur).2 ≠ [] →
        containsNonWS (semSentLoop C doc sents chunks cur).2 = true) := by
  intro sents
  induction sents with
  | nil => intro chunks cur _ h1 h2; exact ⟨h1, h2⟩
  | cons sent rest ih =>
    intro chunks cur hs h1 h2
    have hsent : containsNonWS sent = true :=
      hs sent (List.mem_cons_self _ _)
    have hs' : ∀ x ∈ rest, containsNonWS x = true :=
      fun x hx => hs x (List.mem_cons_of_mem _ hx)
    simp only [semSentLoop]
    by_cases hbig : C.max_chunk_size < cur.length + sent.length + 1
    · rw [if_pos hbig]
      refine ih _ _ hs' ?_ (fun _ => hsent)
      by_cases hcur : cur ≠ []
      · rw [if_pos hcur]
        intro c hc
        rcases List.mem_append.mp hc with hc | hc
        · exact h1 c hc
        · rcases List.mem_singleton.mp hc with rfl
          exact pstrip_pstrip_ne (h2 hcur)
      · rw [if_neg hcur]
        exact h1
    · rw [if_neg hbig]
      refine ih _ _ hs' h1 ?_
      by_cases hcur : cur ≠ []
      · rw [if_pos hcur]
        intro _
        exact NW_append_left (h2 hcur) _
      · rw [if_neg hcur]
        intro _
        exact hsent

theorem semLoop_NW (C : Chunker) (doc : Document) :
    ∀ (paras : List Str) (chunks : List Chunk) (cur : Str),
      (∀ c ∈ chunks, pstrip c.content ≠ []) →
      (cur ≠ [] → containsNonWS cur = true) →
      (∀ c ∈ (semLoop C doc paras chunks cur).1, pstrip c.content ≠ []) ∧
      ((semLoop C doc paras chunks cur).2 ≠ [] →
        containsNonWS (semLoop C doc paras chunks cur).2 = true) := by
  intro paras
  induction paras with
  | nil => intro chunks cur h1 h2; exact ⟨h1, h2⟩
  | cons p rest ih =>
    intro chunks cur h1 h2
    simp only [semLoop]
    by_cases hp0 : pstrip p = []
    · rw [if_pos hp0]
      exact ih chunks cur h1 h2
    · rw [if_neg hp0]
      have hpara : containsNonWS (pstrip p) = true := by
        rw [containsNonWS_pstrip]
        exact containsNonWS_of_pstrip_ne hp0
      by_cases hbig : C.max_chunk_size < cur.length + (pstrip p).length + 2
      · rw [if_pos hbig]
        by_cases hcur : cur ≠ []
        · rw [if_pos hcur]
          refine ih _ _ ?_ ?_
          · intro c hc
            rcases List.mem_append.mp hc with hc | hc
            · exact h1 c hc
            · rcases List.mem_singleton.mp hc with rfl
              exact pstrip_pstrip_ne (h2 hcur)
          · by_cases hov : 0 < C.overlap_size
            · rw [if_pos hov]
              intro _
              exact NW_nn hpara _
            · rw [if_neg hov]
              intro _
              exact hpara
        · rw [if_neg hcur]
          have hsc := semSentLoop_NW C doc (splitSentences (pstrip p))
            chunks cur (splitSentences_NW (lastNonWS_pstrip hp0)) h1 h2
          exact ih _ _ hsc.1 hsc.2
      · rw [if_neg hbig]
        refine ih _ _ h1 ?_
        by_cases hcur : cur ≠ []
        · rw [if_pos hcur]
          intro _
          exact NW_append_left (h2 hcur) _
        · rw [if_neg hcur]
          intro _
          exact hpara

theorem semAssemble_pstrip (C : Chunker) (doc : Document)
    (chunks : List Chunk) (cur : Str)
    (h1 : ∀ c ∈ chunks, pstrip c.content ≠ [])
    (h2 : cur ≠ [] → containsNonWS cur = true) :
    ∀ c ∈ (if cur ≠ [] ∧ C.min_chunk_size ≤ cur.length then
        chunks ++ [createChunk C doc cur chunks.length none]
      else if cur ≠ [] ∧ chunks ≠ [] then
        match chunks.getLast? with
        | some last =>
          chunks.dropLast ++
            [createChunk C doc (last.content ++ '\n' :: '\n' :: cur)
              (chunks.length - 1) none]
        | none => chunks
      else if cur ≠ [] then chunks ++ [createChunk C doc cur 0 none]
      else chunks), pstrip c.content ≠ [] := by
  by_cases hA : cur ≠ [] ∧ C.min_chunk_size ≤ cur.length
  · rw [if_pos hA]
    intro c hc
    rcases List.mem_append.mp hc with hc | hc
    · exact h1 c hc
    · rcases List.mem_singleton.mp hc with rfl
      exact pstrip_pstrip_ne (h2 hA.1)
  · rw [if_neg hA]
    by_cases hB : cur ≠ [] ∧ chunks ≠ []
    · rw [if_pos hB]
      cases hlast : chunks.getLast? with
      | some last =>
        intro c hc
        rcases List.mem_append.mp hc with hc | hc
        · exact h1 c (List.dropLast_subset _ hc)
        · rcases List.mem_singleton.mp hc with rfl
          show pstrip (pstrip (last.content ++ '\n' :: '\n' :: cur)) ≠ []
          exact pstrip_pstrip_ne (NW_nn (h2 hB.1) last.content)
      | none => exact h1
    · rw [if_neg hB]
      by_cases hC : cur ≠ []
      · rw [if_pos hC]
        intro c hc
        rcases List.mem_append.mp hc with hc | hc
        · exact h1 c hc
        · rcases List.mem_singleton.mp hc with rfl
          exact pstrip_pstrip_ne (h2 hC)
      · rw [if_neg hC]
        exact h1

theorem semanticChunk_NW (C : Chunker) (doc : Document)
    (h : containsNonWS doc.content = true) :
    1 ≤ (semanticChunk C doc).length ∧
    ∀ c ∈ semanticChunk C doc, pstrip c.content ≠ [] := by
  unfold semanticChunk
  simp only []
  have hcont : containsNonWS (pstrip doc.content) = true := by
    rw [containsNonWS_pstrip]
    exact h
  by_cases hsmall : (pstrip doc.content).length ≤ C.max_chunk_size
  · rw [if_pos hsmall]
    constructor
    · simp
    · intro c hc
      rcases List.mem_singleton.mp hc with rfl
      exact pstrip_pstrip_ne hcont
  · rw [if_neg hsmall]
    have hst := semLoop_NW C doc (splitParagraphs (pstrip doc.content)) [] []
      (fun d hd => absurd hd (List.not_mem_nil d))
      (fun hne => absurd rfl hne)
    constructor
    · exact finalIf_len _ _
    · exact finalIf_mem (semAssemble_pstrip C doc _ _ hst.1 hst.2)
        (pstrip_pstrip_ne hcont)

theorem chunkDocument_NW (C : Chunker) (doc : Document)
    (h : containsNonWS doc.content = true) :
    1 ≤ (chunkDocument C doc).length ∧
    ∀ c ∈ chunkDocument C doc, pstrip c.content ≠ [] := by
  unfold chunkDocument
  by_cases h1 : doc.doc_type = "progress_note".data
  · rw [if_pos h1]
    exact chunkBySoap_NW C doc h
  · rw [if_neg h1]
    by_cases h2 : doc.doc_type = "hra".data
    · rw [if_pos h2]
      exact chunkBySections_NW C doc h
    · rw [if_neg h2]
      by_cases h3 : doc.doc_type = "lab".data
      · rw [if_pos h3]
        exact chunkBySections_NW C doc h
      · rw [if_neg h3]
        by_cases h4 : doc.doc_type = "cardiology_consult".data ∨
            doc.doc_type = "sleep_study".data ∨
            doc.doc_type = "other_consult".data ∨
            doc.doc_type = "imaging".data
        · rw [if_pos h4]
          exact chunkBySections_NW C doc h
        · rw [if_neg h4]
          by_cases h5 : doc.doc_type = "prior_year_problems".data
          · rw [if_pos h5]
            exact chunkBySections_NW C doc h
          · rw [if_neg h5]
            exact semanticChunk_NW C doc h

theorem upsertRow_length_of_mem {rows : List FTSRow} {r : FTSRow}
    (hnd : (rows.map (fun x => x.chunk_id)).Nodup)
    (hmem : r.chunk_id ∈ rows.map (fun x => x.chunk_id)) :
    (upsertRow rows r).length = rows.length := by
  have key : ∀ rows : List FTSRow,
      (rows.map (fun x => x.chunk_id)).Nodup →
      r.chunk_id ∈ rows.map (fun x => x.chunk_id) →
      (rows.filter (fun y => y.chunk_id ≠ r.chunk_id)).length + 1 =
        rows.length := by
    intro rows
    induction rows with
    | nil => intro _ hmem; simp at hmem
    | cons x rest ih =>
      intro hnd hmem
      simp only [List.map_cons, List.nodup_cons] at hnd
      simp only [List.map_cons, List.mem_cons] at hmem
      rcases hmem with h | h
      · have hfilter : rest.filter (fun y => y.chunk_id ≠ r.chunk_id) = rest := by
          apply List.filter_eq_self.mpr
          intro y hy
          have hne : ¬y.chunk_id = r.chunk_id := by
            intro hc
            have hin : y.chunk_id ∈ List.map (fun z => z.chunk_id) rest :=
              List.mem_map_of_mem (fun z => z.chunk_id) hy
            rw [hc, h] at hin
            exact hnd.1 hin
          exact decide_eq_true hne
        have hx : (decide (x.chunk_id ≠ r.chunk_id)) = false := by
          simp [h.symm]
        rw [List.filter_cons, hx]
        simp only [Bool.false_eq_true, if_false, hfilter, List.length_cons]
      · have hxr : x.chunk_id ≠ r.chunk_id := by
          intro hc
          exact hnd.1 (by rw [hc]; exact h)
        have hx : (decide (x.chunk_id ≠ r.chunk_id)) = true :=
          decide_eq_true hxr
        rw [List.filter_cons, hx]
        simp only [if_true, List.length_cons]
        have := ih hnd.2 h
        omega
  unfold upsertRow
  rw [List.length_append]
  simpa using key rows hnd hmem

/-! ## Claim C10 -/

/-- C10: after the first call, every subsequent call to
`get_search_index` returns the identical cached `SearchIndex` instance,
ignores any `index_dir` / `embedding_model` arguments, and leaves the
cached state unchanged (the module provides no operation that resets
`_search_index`). -/
theorem claim_C10 (construct : Str → Str → SearchIndexT)
    (INDEX_DIR EMBEDDING_MODEL : Str) (idx : SearchIndexT)
    (index_dir embedding_model : Option Str) :
    getSearchIndex construct INDEX_DIR EMBEDDING_MODEL (some idx)
      index_dir embedding_model = (idx, some idx) := rfl

/-! ## Claim C4 -/

/-- C4: re-adding a chunk whose id is already present leaves the lexical
index's row count (`SELECT COUNT(*) FROM chunks`) unchanged — replace
semantics of `INSERT OR REPLACE` on the `chunk_id` primary key — while
re-adding the same chunk to the vector index grows it by exactly one
(append-only `faiss` index and parallel `chunks` list). -/
theorem claim_C4 (st : FTSStoreM) (vs : VectorStoreM) (ext : VectorExt)
    (c : Chunk) (hnd : (st.rows.map (fun r => r.chunk_id)).Nodup)
    (hfts : c.id ∈ st.rows.map (fun r => r.chunk_id))
    (_hvec : c.id ∈ vs.chunks.map (fun ch => ch.id)) :
    ftsCount (ftsAddChunks st [c]) = ftsCount st ∧
    (vectorAddChunks ext vs [c]).chunks.length = vs.chunks.length + 1 := by
  refine ⟨?_, ?_⟩
  · show (upsertRow st.rows (rowOfChunk c)).length = st.rows.length
    exact upsertRow_length_of_mem hnd (by simpa [rowOfChunk] using hfts)
  · unfold vectorAddChunks
    simp only [if_neg (by simp : ¬([c] : List Chunk) = [])]
    split <;> simp

def w4ext : VectorExt :=
  { embed := fun _ _ => [1], faissSearch := fun _ _ _ => [], dim := fun _ => 1 }

def w4chunk : Chunk :=
  { id := "c1".data, content := "hello".data,
    metadata := { patient_id := "P".data, doc_type := "note".data,
                  date := some "2024".data, source_file := "f".data,
                  sectionName := none } }

def w4fts : FTSStoreM := ftsAddChunks emptyFTSStore [w4chunk]

def w4vec : VectorStoreM :=
  { embedding_model_name := "m".data, index := some [[1]],
    chunks := [w4chunk], chunk_to_idx := [(w4chunk.id, 0)],
    dimension := some 1 }

theorem claim_C4_witness :
    ftsCount (ftsAddChunks w4fts [w4chunk]) = ftsCount w4fts ∧
    (vectorAddChunks w4ext w4vec [w4chunk]).chunks.length =
      w4vec.chunks.length + 1 :=
  claim_C4 w4fts w4vec w4ext w4chunk (by decide) (by decide) (by decide)

/-! ## Claim C8 -/

/-- C8: `save()` followed by `load()` into a fresh `VectorStore`
instance yields the same chunk count and, for any fixed query (same
embedding and FAISS behaviour, any `top_k`, patient filter and score
floor), the same ranked search results as the original instance. -/
theorem claim_C8 (ext : VectorExt) (vs : VectorStoreM) (model query : Str)
    (top_k : Nat) (pid : Option Str) (ms : ℚ) :
    (vectorLoad (vectorSave vs) (freshVectorStore model)).chunks.length =
      vs.chunks.length ∧
    vectorSearch ext (vectorLoad (vectorSave vs) (freshVectorStore model))
      query top_k pid ms = vectorSearch ext vs query top_k pid ms := by
  have hstore : vectorLoad (vectorSave vs) (freshVectorStore model) =
      { embedding_model_name := vs.embedding_model_name,
        index := vs.index, chunks := vs.chunks,
        chunk_to_idx := vs.chunks.enum.foldl
          (fun m ic => dictSet m ic.2.id ic.1) [],
        dimension := vs.dimension } := by
    unfold vectorLoad vectorSave freshVectorStore
    cases hidx : vs.index <;> simp
  rw [hstore]
  refine ⟨rfl, ?_⟩
  unfold vectorSearch
  rfl

/-! ## Claim C6 -/

/-- A chunker whose (modelled) tokenizer yields 10 tokens per character,
with a 60-token budget. -/
def c6ex : Chunker :=
  { countTokens := fun s => 10 * s.length, md5hex8 := fun _ => [],
    max_tokens := 60 }

/-- C6 counterexample: splitting `"aaa bbb ccc"` (oversized, with an
empty header, so the header-too-large exclusion does not apply) emits
only `"ccc"`: the words `"aaa"` and `"bbb"` are silently dropped because
the closed pieces are shorter than `MIN_SPLIT_CONTENT_SIZE = 50`
characters, refuting "in every other case all of the original section's
text appears in some emitted piece". -/
theorem claim_C6_counterexample :
    splitOversized c6ex "aaa bbb ccc".data [] "sec".data =
      [("sec".data, "ccc".data)] ∧
    c6ex.max_tokens < c6ex.countTokens "aaa bbb ccc".data ∧
    ¬ c6ex.max_tokens < 60 ∧
    ∀ p ∈ splitOversized c6ex "aaa bbb ccc".data [] "sec".data,
      containsSub "aaa".data p.2 = false := by decide

/-- C6 amended: when the header leaves fewer than 50 available tokens
(`max_tokens < header_tokens + 60` over ℤ) the oversized chunk is kept
whole as a last resort, and token-budget splitting always emits at least
one piece; however, a closed piece whose body is shorter than 50
characters is silently discarded (unless nothing else was emitted), so
text occurring only in such pieces does not reach the output. -/
theorem claim_C6_amended :
    (∀ (C : Chunker) (content header sectionName : Str),
      ¬ C.countTokens content ≤ C.max_tokens →
      C.max_tokens < (if header ≠ [] ∧ header.isPrefixOf content
          then C.countTokens header else 0) + 60 →
      splitOversized C content header sectionName = [(sectionName, content)]) ∧
    (∀ (C : Chunker) (content header sectionName : Str),
      splitOversized C content header sectionName ≠ []) := by
  constructor
  · intro C content header sectionName hover hhdr
    unfold splitOversized
    rw [if_neg hover]
    by_cases hcond : header ≠ [] ∧ header.isPrefixOf content
    · rw [if_pos hcond] at hhdr
      simp only [if_pos hcond]
      have hne := hcond.1
      repeat' split
      all_goals simp_all
    · rw [if_neg hcond] at hhdr
      simp only [if_neg hcond]
      repeat' split
      all_goals simp_all
  · intro C content header sectionName
    have hor : ∀ (l : List (Str × Str)) (n c : Str), orWhole l n c ≠ [] := by
      intro l n c
      unfold orWhole
      split <;> simp_all
    have hshape : ∀ (A B : Prop) (iA : Decidable A) (iB : Decidable B)
        (L : List (Str × Str)) (s c : Str),
        (if A then [(s, c)] else if B then [(s, c)] else orWhole L s c) ≠ [] := by
      intro A B iA iB L s c
      split_ifs
      · simp
      · simp
      · exact hor L s c
    unfold splitOversized
    split
    · simp
    · exact hshape _ _ _ _ _ _ _

/-! ## Claim C2 -/

/-- A chunker whose (modelled) tokenizer yields one token per character
(all other parameters at their defaults, `max_tokens = 480`). -/
def c2ex : Chunker :=
  { countTokens := fun s => s.length, md5hex8 := fun _ => [] }

/-- A 299-character sentence. -/
def c2sent : Str := List.replicate 298 'a' ++ ['.']

/-- Two such sentences: 599 characters, under `max_chunk_size = 1500`. -/
def c2content : Str := c2sent ++ ' ' :: c2sent

def c2doc : Document :=
  { content := c2content, patient_id := "P".data, doc_type := "other".data,
    date := some "2024-01-01".data, source_file := "f.txt".data }

set_option maxRecDepth 4000

/-- C2 counterexample: a 599-character `other` document is emitted by
the semantic strategy as a single chunk of 599 tokens, far above
`max_tokens = 480`, even though neither exclusion applies (there is no
header, and each individual sentence is only 299 tokens, well under the
available budget, so splitting would have succeeded): the semantic
strategy never applies token-budget splitting. -/
theorem claim_C2_counterexample :
    (chunkDocument c2ex c2doc).map (fun c => c.content) = [c2content] ∧
    c2ex.max_tokens < c2ex.countTokens c2content ∧
    c2ex.countTokens c2sent ≤ c2ex.max_tokens - 10 := by decide

def c6w : Chunker :=
  { countTokens := fun s => s.length, md5hex8 := fun _ => [],
    max_tokens := 100 }

def c6wheader : Str := List.replicate 100 'H'

def c6wcontent : Str := c6wheader ++ " body".data

theorem claim_C6_witness :
    splitOversized c6w c6wcontent c6wheader "sec".data =
      [("sec".data, c6wcontent)] ∧
    splitOversized c6w c6wcontent c6wheader "sec".data ≠ [] :=
  ⟨claim_C6_amended.1 c6w c6wcontent c6wheader "sec".data (by decide) (by decide),
   claim_C6_amended.2 c6w c6wcontent c6wheader "sec".data⟩

/-! ### countTokens-independence of the semantic strategy -/

theorem createChunk_countTokens (C : Chunker) (f : Str → Nat) :
    createChunk { C with countTokens := f } = createChunk C := rfl

theorem semSentLoop_countTokens (C : Chunker) (f : Str → Nat) (doc : Document) :
    ∀ (l : List Str) (chunks : List Chunk) (cur : Str),
      semSentLoop { C with countTokens := f } doc l chunks cur =
        semSentLoop C doc l chunks cur := by
  intro l
  induction l with
  | nil => intro chunks cur; rfl
  | cons s rest ih =>
    intro chunks cur
    simp only [semSentLoop, ih, createChunk_countTokens]

theorem semLoop_countTokens (C : Chunker) (f : Str → Nat) (doc : Document) :
    ∀ (l : List Str) (chunks : List Chunk) (cur : Str),
      semLoop { C with countTokens := f } doc l chunks cur =
        semLoop C doc l chunks cur := by
  intro l
  induction l with
  | nil => intro chunks cur; rfl
  | cons p rest ih =>
    intro chunks cur
    simp only [semLoop, ih, semSentLoop_countTokens, createChunk_countTokens]

theorem semanticChunk_countTokens (C : Chunker) (f : Str → Nat)
    (doc : Document) :
    semanticChunk { C with countTokens := f } doc = semanticChunk C doc := by
  simp only [semanticChunk, semLoop_countTokens, createChunk_countTokens]

/-- C2 amended: token-budget splitting applies only under the SOAP and
header-delimited strategies.  The fallback semantic strategy performs no
token check at all — its output does not depend on the tokenizer — so
its chunks may exceed `max_tokens`; and, under the splitting strategies,
a chunk whose token count is at most `max_tokens` always passes through
`_split_oversized_chunk` unchanged. -/
theorem claim_C2_amended :
    (∀ (C : Chunker) (f : Str → Nat) (doc : Document),
      doc.doc_type ≠ "progress_note".data →
      doc.doc_type ≠ "hra".data →
      doc.doc_type ≠ "lab".data →
      doc.doc_type ≠ "cardiology_consult".data →
      doc.doc_type ≠ "sleep_study".data →
      doc.doc_type ≠ "other_consult".data →
      doc.doc_type ≠ "imaging".data →
      doc.doc_type ≠ "prior_year_problems".data →
      chunkDocument { C with countTokens := f } doc = chunkDocument C doc) ∧
    (∀ (C : Chunker) (content header sectionName : Str),
      C.countTokens content ≤ C.max_tokens →
      splitOversized C content header sectionName = [(sectionName, content)]) := by
  constructor
  · intro C f doc h1 h2 h3 h4 h5 h6 h7 h8
    unfold chunkDocument
    rw [if_neg h1, if_neg h2, if_neg h3,
      if_neg (by rintro (h | h | h | h) <;> simp_all), if_neg h8,
      if_neg h1, if_neg h2, if_neg h3,
      if_neg (by rintro (h | h | h | h) <;> simp_all), if_neg h8]
    exact semanticChunk_countTokens C f doc
  · intro C content header sectionName h
    unfold splitOversized
    rw [if_pos h]

def c2w : Chunker :=
  { countTokens := fun s => s.length, md5hex8 := fun _ => [] }

theorem claim_C2_witness :
    chunkDocument { c2w with countTokens := fun _ => 9999 } c2doc =
      chunkDocument c2w c2doc ∧
    splitOversized c2w "short".data [] "s".data =
      [("s".data, "short".data)] :=
  ⟨claim_C2_amended.1 c2w (fun _ => 9999) c2doc (by decide) (by decide)
    (by decide) (by decide) (by decide) (by decide) (by decide) (by decide),
   claim_C2_amended.2 c2w "short".data [] "s".data (by decide)⟩

/-! ## Claim C7: chunk-id structure -/

/-- Decimal parsing, the inverse of `natDecimal`. -/
def parseNat (s : Str) : Nat := s.foldl (fun a c => 10 * a + (c.toNat - 48)) 0

theorem digitChar_toNat {d : Nat} (hd : d < 10) : (digitChar d).toNat = 48 + d := by
  interval_cases d <;> decide

theorem parse_natDecimalAux : ∀ fuel n, n < fuel →
    parseNat (natDecimalAux fuel n) = n := by
  intro fuel
  induction fuel with
  | zero => intro n h; omega
  | succ fuel ih =>
    intro n h
    unfold natDecimalAux
    by_cases h10 : n < 10
    · rw [if_pos h10]
      show 10 * 0 + ((digitChar n).toNat - 48) = n
      rw [digitChar_toNat h10]
      omega
    · rw [if_neg h10]
      unfold parseNat
      rw [List.foldl_append]
      have hrec : parseNat (natDecimalAux fuel (n / 10)) = n / 10 := by
        apply ih
        have : n / 10 < n := Nat.div_lt_self (by omega) (by omega)
        omega
      unfold parseNat at hrec
      rw [hrec]
      show 10 * (n / 10) + ((digitChar (n % 10)).toNat - 48) = n
      rw [digitChar_toNat (Nat.mod_lt _ (by omega))]
      omega

theorem natDecimal_injective : Function.Injective natDecimal := by
  intro a b h
  have ha := parse_natDecimalAux (a + 1) a (by omega)
  have hb := parse_natDecimalAux (b + 1) b (by omega)
  unfold natDecimal at h
  rw [← ha, ← hb, h]

/-- The id prefix `f"{patient_id}_{doc_type}_{date_part}_"` shared by
all chunks of one document. -/
def docIdPrefix (C : Chunker) (doc : Document) : Str :=
  doc.patient_id ++ '_' :: doc.doc_type ++ '_' ::
    (match doc.date with
     | some d => d
     | none => 'h' :: C.md5hex8 doc.source_file) ++ ['_']

def mkChunkId (C : Chunker) (doc : Document) (index : Nat) : Str :=
  docIdPrefix C doc ++ natDecimal index

theorem createChunk_id (C : Chunker) (doc : Document) (content : Str)
    (index : Nat) (s : Option Str) :
    (createChunk C doc content index s).id = mkChunkId C doc index := by
  unfold createChunk mkChunkId docIdPrefix
  cases doc.date <;> simp

theorem mkChunkId_inj (C : Chunker) (doc : Document) {i j : Nat}
    (h : mkChunkId C doc i = mkChunkId C doc j) : i = j := by
  unfold mkChunkId at h
  exact natDecimal_injective (List.append_cancel_left h)

/-- All ids in a produced chunk list are position-indexed:
`chunks[k].id = mkChunkId C doc k`. -/
def IdsOK (C : Chunker) (doc : Document) (chunks : List Chunk) : Prop :=
  ∀ k (h : k < chunks.length), (chunks.get ⟨k, h⟩).id = mkChunkId C doc k

theorem IdsOK_nil (C : Chunker) (doc : Document) : IdsOK C doc [] := by
  intro k h
  simp at h

theorem IdsOK_single (C : Chunker) (doc : Document) (content : Str)
    (s : Option Str) : IdsOK C doc [createChunk C doc content 0 s] := by
  intro k h
  simp only [List.length_singleton] at h
  interval_cases k
  simpa using createChunk_id C doc content 0 s

theorem IdsOK_append_one {C : Chunker} {doc : Document} {chunks : List Chunk}
    (h : IdsOK C doc chunks) (content : Str) (s : Option Str) :
    IdsOK C doc (chunks ++ [createChunk C doc content chunks.length s]) := by
  intro k hk
  rw [List.length_append, List.length_singleton] at hk
  by_cases hlt : k < chunks.length
  · rw [List.get_append _ hlt]
    exact h k hlt
  · have hkeq : k = chunks.length := by omega
    subst hkeq
    have : (chunks ++ [createChunk C doc content chunks.length s]).get
        ⟨chunks.length, by simp⟩ = createChunk C doc content chunks.length s := by
      simp
    rw [this]
    exact createChunk_id C doc content chunks.length s

theorem IdsOK_replace_last {C : Chunker} {doc : Document} {chunks : List Chunk}
    (h : IdsOK C doc chunks) (hne : chunks ≠ []) (content : Str)
    (s : Option Str) :
    IdsOK C doc (chunks.dropLast ++
      [createChunk C doc content (chunks.length - 1) s]) := by
  have hlen : chunks.dropLast.length = chunks.length - 1 := by simp
  intro k hk
  rw [List.length_append, List.length_singleton, hlen] at hk
  have hlen1 : 1 ≤ chunks.length := by
    cases chunks with
    | nil => exact absurd rfl hne
    | cons a l => simp
  by_cases hlt : k < chunks.length - 1
  · rw [List.get_append _ (by omega : k < chunks.dropLast.length)]
    have : chunks.dropLast.get ⟨k, by omega⟩ = chunks.get ⟨k, by omega⟩ := by
      simp [List.getElem_dropLast]
    rw [this]
    exact h k (by omega)
  · have hkeq : k = chunks.length - 1 := by omega
    subst hkeq
    have : (chunks.dropLast ++
        [createChunk C doc content (chunks.length - 1) s]).get
        ⟨chunks.length - 1, by rw [List.length_append, List.length_singleton, hlen]; omega⟩ =
        createChunk C doc content (chunks.length - 1) s := by
      rw [List.get_append_right] <;> simp [hlen] <;> omega
    rw [this]
    exact createChunk_id C doc content (chunks.length - 1) s

theorem IdsOK_appendPieces {C : Chunker} {doc : Document} :
    ∀ (pieces : List (Str × Str)) (chunks : List Chunk),
      IdsOK C doc chunks → IdsOK C doc (appendPieces C doc chunks pieces) := by
  intro pieces
  induction pieces with
  | nil => intro chunks h; exact h
  | cons p ps ih =>
    intro chunks h
    show IdsOK C doc (List.foldl _ _ (p :: ps))
    rw [List.foldl_cons]
    exact ih _ (IdsOK_append_one h p.2 (some p.1))

theorem IdsOK_foldl_appendPieces {C : Chunker} {doc : Document} {α : Type}
    (F : α → List (Str × Str)) :
    ∀ (l : List α) (chunks : List Chunk), IdsOK C doc chunks →
      IdsOK C doc (l.foldl (fun acc s => appendPieces C doc acc (F s)) chunks) := by
  intro l
  induction l with
  | nil => intro chunks h; exact h
  | cons x xs ih =>
    intro chunks h
    rw [List.foldl_cons]
    exact ih _ (IdsOK_appendPieces (F x) chunks h)

theorem IdsOK_nodup {C : Chunker} {doc : Document} {chunks : List Chunk}
    (h : IdsOK C doc chunks) : (chunks.map (fun c => c.id)).Nodup := by
  rw [List.nodup_iff_injective_get]
  rintro ⟨i, hi⟩ ⟨j, hj⟩ hij
  rw [List.length_map] at hi hj
  rw [List.get_map, List.get_map] at hij
  have : mkChunkId C doc i = mkChunkId C doc j := by
    rw [← h i hi, ← h j hj]
    exact hij
  have := mkChunkId_inj C doc this
  simpa using this

theorem chunkBySoap_IdsOK (C : Chunker) (doc : Document) :
    IdsOK C doc (chunkBySoap C doc) := by
  unfold chunkBySoap
  simp only []
  split
  · exact IdsOK_single C doc doc.content none
  · exact IdsOK_foldl_appendPieces _ _ _ (IdsOK_nil C doc)

theorem chunkBySections_IdsOK (C : Chunker) (doc : Document) :
    IdsOK C doc (chunkBySections C doc) := by
  unfold chunkBySections
  simp only []
  split
  · exact IdsOK_single C doc doc.content none
  · exact IdsOK_foldl_appendPieces _ _ _ (IdsOK_nil C doc)

theorem semSentLoop_IdsOK (C : Chunker) (doc : Document) :
    ∀ (l : List Str) (chunks : List Chunk) (cur : Str), IdsOK C doc chunks →
      IdsOK C doc (semSentLoop C doc l chunks cur).1 := by
  intro l
  induction l with
  | nil => intro chunks cur h; exact h
  | cons s rest ih =>
    intro chunks cur h
    unfold semSentLoop
    simp only []
    split
    · split
      · exact ih _ _ (IdsOK_append_one h cur none)
      · exact ih _ _ h
    · exact ih _ _ h

theorem semLoop_IdsOK (C : Chunker) (doc : Document) :
    ∀ (l : List Str) (chunks : List Chunk) (cur : Str), IdsOK C doc chunks →
      IdsOK C doc (semLoop C doc l chunks cur).1 := by
  intro l
  induction l with
  | nil => intro chunks cur h; exact h
  | cons p rest ih =>
    intro chunks cur h
    unfold semLoop
    simp only []
    split
    · exact ih _ _ h
    · split
      · split
        · exact ih _ _ (IdsOK_append_one h cur none)
        · exact ih _ _ (semSentLoop_IdsOK C doc _ _ _ h)
      · exact ih _ _ h

theorem IdsOK_orSingle {C : Chunker} {doc : Document} {l : List Chunk}
    (h : IdsOK C doc l) (content : Str) :
    IdsOK C doc (if l = [] then [createChunk C doc content 0 none] else l) := by
  split
  · exact IdsOK_single C doc content none
  · exact h

theorem semanticChunk_IdsOK (C : Chunker) (doc : Document) :
    IdsOK C doc (semanticChunk C doc) := by
  unfold semanticChunk
  simp only []
  split
  · exact IdsOK_single C doc (pstrip doc.content) none
  · have hsem := semLoop_IdsOK C doc (splitParagraphs (pstrip doc.content))
      [] [] (IdsOK_nil C doc)
    apply IdsOK_orSingle _ (pstrip doc.content)
    split
    · exact IdsOK_append_one hsem _ none
    · split
      · next hcond2 =>
        split
        · next last hlast =>
          exact IdsOK_replace_last hsem hcond2.2 _ none
        · exact hsem
      · next hcond2 =>
        split
        · next h3 =>
          have hnil : (semLoop C doc (splitParagraphs (pstrip doc.content))
              [] []).1 = [] := by
            by_contra hcontra
            exact hcond2 ⟨h3, hcontra⟩
          rw [hnil]
          have := IdsOK_append_one (IdsOK_nil C doc)
            (semLoop C doc (splitParagraphs (pstrip doc.content)) [] []).2 none
          simpa using this
        · exact hsem

theorem chunkDocument_IdsOK (C : Chunker) (doc : Document) :
    IdsOK C doc (chunkDocument C doc) := by
  unfold chunkDocument
  split
  · exact chunkBySoap_IdsOK C doc
  · split
    · exact chunkBySections_IdsOK C doc
    · split
      · exact chunkBySections_IdsOK C doc
      · split
        · exact chunkBySections_IdsOK C doc
        · split
          · exact chunkBySections_IdsOK C doc
          · exact semanticChunk_IdsOK C doc

def c7 : Chunker :=
  { countTokens := fun s => s.length / 4, md5hex8 := fun _ => [] }

def c7doc1 : Document :=
  { content := "First document text.".data, patient_id := "P1".data,
    doc_type := "other".data, date := some "2024-01-01".data,
    source_file := "a.txt".data }

def c7doc2 : Document :=
  { content := "Completely different text here.".data,
    patient_id := "P1".data, doc_type := "other".data,
    date := some "2024-01-01".data, source_file := "b.txt".data }

/-- C7 counterexample: two distinct Documents of the same patient, type
and date produce distinct chunks sharing the identical id
`P1_other_2024-01-01_0`, refuting corpus-wide uniqueness. -/
theorem claim_C7_counterexample :
    c7doc1 ≠ c7doc2 ∧
    (chunkDocument c7 c7doc1).length = 1 ∧
    (chunkDocument c7 c7doc2).length = 1 ∧
    ∀ c1 ∈ chunkDocument c7 c7doc1, ∀ c2 ∈ chunkDocument c7 c7doc2,
      c1 ≠ c2 ∧ c1.id = c2.id := by decide

/-- C7 amended: ids are unique among the chunks produced from a single
Document — every produced id is the document's prefix
`{patient_id}_{doc_type}_{date_part}_` followed by the chunk's ordinal
index, so two chunks of one `chunk_document` call never collide — and a
Document with no date uses `h` plus the stable hash of `source_file` as
the date part.  Across documents sharing patient id, doc type and date
(or hash), ids can repeat. -/
theorem claim_C7 (C : Chunker) (doc : Document) :
    ((chunkDocument C doc).map (fun c => c.id)).Nodup ∧
    (∀ c ∈ chunkDocument C doc, ∃ k,
      c.id = docIdPrefix C doc ++ natDecimal k) ∧
    (doc.date = none → docIdPrefix C doc =
      doc.patient_id ++ '_' :: doc.doc_type ++ '_' :: 'h' ::
        (C.md5hex8 doc.source_file ++ ['_'])) := by
  have hids := chunkDocument_IdsOK C doc
  refine ⟨IdsOK_nodup hids, ?_, ?_⟩
  · intro c hc
    obtain ⟨⟨k, hk⟩, hgetk⟩ := List.mem_iff_get.mp hc
    exact ⟨k, by rw [← hgetk]; exact hids k hk⟩
  · intro hdate
    simp [docIdPrefix, hdate]

def c7wdoc : Document :=
  { content := "short note".data, patient_id := "P".data,
    doc_type := "other".data, date := none, source_file := "s.txt".data }

theorem claim_C7_witness :
    docIdPrefix c7 c7wdoc = c7wdoc.patient_id ++ '_' :: c7wdoc.doc_type ++
      '_' :: 'h' :: (c7.md5hex8 c7wdoc.source_file ++ ['_']) ∧
    ((chunkDocument c7 c7wdoc).map (fun c => c.id)).Nodup :=
  ⟨(claim_C7 c7 c7wdoc).2.2 rfl, (claim_C7 c7 c7wdoc).1⟩

/-! ## Claim C5: patient scoping -/

theorem truthy_some_ne {X : Str} (hX : X ≠ []) : truthy (some X) = true := by
  simp [truthy, hX]

theorem vresLoop_patient {chunks : List Chunk} {X : Str} {min_score : ℚ}
    {top_k : Nat} (hX : X ≠ []) :
    ∀ (hits : List (ℚ × Int)) (acc : List VSearchResult),
      (∀ r ∈ acc, r.chunk.metadata.patient_id = X) →
      ∀ r ∈ vresLoop chunks (some X) min_score top_k hits acc,
        r.chunk.metadata.patient_id = X := by
  intro hits
  induction hits with
  | nil => intro acc hacc r hr; exact hacc r hr
  | cons si rest ih =>
    intro acc hacc r hr
    unfold vresLoop at hr
    split at hr
    · exact ih acc hacc r hr
    · split at hr
      · exact ih acc hacc r hr
      · next chunk hchunk =>
        split at hr
        · exact ih acc hacc r hr
        · next hfilter =>
          have hchp : chunk.metadata.patient_id = X := by
            by_contra hne
            exact hfilter ⟨by simp [truthy_some_ne hX], by simpa using hne⟩
          have hacc' : ∀ r' ∈ acc ++ [⟨chunk, si.1⟩],
              r'.chunk.metadata.patient_id = X := by
            intro r' hr'
            rcases List.mem_append.mp hr' with h | h
            · exact hacc r' h
            · rcases List.mem_singleton.mp h with rfl
              exact hchp
          simp only [] at hr
          split at hr
          · exact hacc' r hr
          · exact ih _ hacc' r hr

theorem vectorSearch_patient (ext : VectorExt) (vs : VectorStoreM)
    (query : Str) (top_k : Nat) {X : Str} (ms : ℚ) (hX : X ≠ []) :
    ∀ r ∈ vectorSearch ext vs query top_k (some X) ms,
      r.chunk.metadata.patient_id = X := by
  intro r hr
  unfold vectorSearch at hr
  split at hr
  · simp at hr
  · split at hr
    · simp at hr
    · exact vresLoop_patient hX _ [] (by simp) r hr

theorem ftsSearch_patient (mr : Str → FTSRow → Option ℚ)
    (snip : Str → FTSRow → Str) (st : FTSStoreM) (query : Str) (top_k : Nat)
    {X : Str} (hX : X ≠ []) :
    ∀ r ∈ ftsSearch mr snip st query top_k (some X),
      r.chunk.metadata.patient_id = X := by
  intro r hr
  unfold ftsSearch at hr
  by_cases hq : pstrip (escapeQuery query) = []
  · rw [if_pos hq] at hr
    simp at hr
  · rw [if_neg hq] at hr
    obtain ⟨rs, hrs, hmap⟩ := List.mem_map.mp hr
    have hsorted := List.mem_of_mem_take hrs
    have hscored := (List.perm_insertionSort _ _).mem_iff.mp hsorted
    obtain ⟨row, _hrow, hf⟩ := List.mem_filterMap.mp hscored
    split at hf
    · rw [if_pos (truthy_some_ne hX)] at hf
      by_cases hpx : row.patient_id = (some X).getD []
      · rw [if_pos hpx] at hf
        cases hf
        rw [← hmap]
        exact hpx
      · rw [if_neg hpx] at hf
        cases hf
    · cases hf

theorem dictGet_mem {α : Type} :
    ∀ (m : List (Str × α)) (k : Str) (v : α), dictGet m k = some v →
      (k, v) ∈ m := by
  intro m
  induction m with
  | nil => intro k v h; cases h
  | cons p rest ih =>
    intro k v h
    unfold dictGet at h
    split at h
    · next heq =>
      cases h
      rw [← heq]
      exact List.mem_cons_self p rest
    · exact List.mem_cons_of_mem p (ih k v h)

theorem dictSet_mem {α : Type} (m : List (Str × α)) (k' : Str) (v' : α)
    (p : Str × α) (h : p ∈ dictSet m k' v') : p ∈ m ∨ p = (k', v') := by
  unfold dictSet at h
  split at h
  · obtain ⟨q, hq, hqp⟩ := List.mem_map.mp h
    by_cases hcase : q.1 = k'
    · right
      rw [← hqp, if_pos hcase]
    · left
      rw [← hqp, if_neg hcase]
      exact hq
  · rcases List.mem_append.mp h with h1 | h1
    · left; exact h1
    · right; exact List.mem_singleton.mp h1

theorem foldl_dictSet_mem {β α : Type} (key : β → Str) (val : β → α) :
    ∀ (l : List β) (m0 : List (Str × α)) (p : Str × α),
      p ∈ l.foldl (fun m r => dictSet m (key r) (val r)) m0 →
      p ∈ m0 ∨ ∃ r ∈ l, p = (key r, val r) := by
  intro l
  induction l with
  | nil => intro m0 p h; left; exact h
  | cons x xs ih =>
    intro m0 p h
    rw [List.foldl_cons] at h
    rcases ih _ p h with h1 | h1
    · rcases dictSet_mem m0 (key x) (val x) p h1 with h2 | h2
      · left; exact h2
      · right; exact ⟨x, List.mem_cons_self x xs, h2⟩
    · obtain ⟨r, hr, hp⟩ := h1
      right
      exact ⟨r, List.mem_cons_of_mem x hr, hp⟩

theorem foldl_step_snd_mem {β γ δ α : Type}
    (g : γ × List (Str × α) × δ → β → γ × List (Str × α) × δ)
    (key : β → Str) (val : β → α)
    (hg : ∀ acc r, (g acc r).2.1 = dictSet acc.2.1 (key r) (val r)) :
    ∀ (l : List β) (acc : γ × List (Str × α) × δ) (p : Str × α),
      p ∈ (l.foldl g acc).2.1 → p ∈ acc.2.1 ∨ ∃ r ∈ l, p = (key r, val r) := by
  intro l
  induction l with
  | nil => intro acc p h; left; exact h
  | cons x xs ih =>
    intro acc p h
    rw [List.foldl_cons] at h
    rcases ih _ p h with h1 | h1
    · rw [hg acc x] at h1
      rcases dictSet_mem _ _ _ p h1 with h2 | h2
      · left; exact h2
      · right; exact ⟨x, List.mem_cons_self x xs, h2⟩
    · obtain ⟨r, hr, hp⟩ := h1
      right
      exact ⟨r, List.mem_cons_of_mem x hr, hp⟩

theorem hybridFuse_patient (vw fw : ℚ) (vres : List VSearchResult)
    (fres : List FTSResult) (top_k : Nat) (X : Str)
    (hv : ∀ r ∈ vres, r.chunk.metadata.patient_id = X)
    (hf : ∀ r ∈ fres, r.chunk.metadata.patient_id = X) :
    ∀ r ∈ hybridFuse vw fw vres fres top_k,
      r.chunk.metadata.patient_id = X := by
  intro r hr
  unfold hybridFuse at hr
  have hr2 := List.mem_of_mem_take hr
  have hr3 := (List.perm_insertionSort
    (fun (a b : HybridResult) => b.score ≤ a.score) _).mem_iff.mp hr2
  obtain ⟨cid, _hcid, hsome⟩ := List.mem_filterMap.mp hr3
  obtain ⟨ch, hch, hreq⟩ := Option.map_eq_some'.mp hsome
  have hchr : r.chunk = ch := by rw [← hreq]
  -- `ch` comes from the chunks dictionary, fed only from sub-results
  have hchunks1 : ∀ p ∈ vres.foldl
      (fun m (r' : VSearchResult) => dictSet m r'.chunk.id r'.chunk) [],
      p.2.metadata.patient_id = X := by
    intro p hp
    rcases foldl_dictSet_mem (fun r' : VSearchResult => r'.chunk.id)
      (fun r' : VSearchResult => r'.chunk) vres [] p hp with h | h
    · cases h
    · obtain ⟨r', hr', hp'⟩ := h
      rw [hp']
      exact hv r' hr'
  have hmem := dictGet_mem _ cid ch hch
  revert hmem
  split
  · -- fres non-empty: chunks dictionary extended by the fts loop
    intro hmem
    rcases foldl_step_snd_mem _ (fun r' : FTSResult => r'.chunk.id)
      (fun r' : FTSResult => r'.chunk) (by intro acc r'; rfl) fres _
      (cid, ch) hmem with h | h
    · rw [hchr]
      exact hchunks1 (cid, ch) h
    · obtain ⟨r', hr', hp'⟩ := h
      rw [hchr, (Prod.mk.injEq _ _ _ _).mp hp' |>.2]
      exact hf r' hr'
  · intro hmem
    rw [hchr]
    exact hchunks1 (cid, ch) hmem

/-- C5 amended: for every non-empty patient id `X`, `search(...,
patient_id=X)` — in vector, fts and hybrid (or any other) mode — never
returns a result whose chunk's `metadata.patient_id` differs from `X`.
(The empty string is excluded: Python's `if patient_id:` treats `""` as
"no filter".) -/
theorem claim_C5 (ext : SearchExt) (H : HybridSearchM) (query : Str)
    (top_k : Nat) (X : Str) (mode : Str) (hX : X ≠ []) :
    ∀ r ∈ hsearch ext H query top_k (some X) mode,
      r.chunk.metadata.patient_id = X := by
  intro r hr
  unfold hsearch at hr
  split at hr
  · unfold hvectorSearch at hr
    obtain ⟨r0, hr0, hmap⟩ := List.mem_map.mp hr
    rw [← hmap]
    exact vectorSearch_patient ext.vext H.vector_store query top_k 0 hX r0 hr0
  · split at hr
    · unfold hftsSearch at hr
      obtain ⟨r0, hr0, hmap⟩ := List.mem_map.mp hr
      rw [← hmap]
      exact ftsSearch_patient ext.matchRank ext.snip H.fts_store query top_k
        hX r0 hr0
    · unfold hybridSearch at hr
      exact hybridFuse_patient H.vector_weight H.fts_weight _ _ top_k X
        (vectorSearch_patient ext.vext H.vector_store query (top_k * 2) 0 hX)
        (ftsSearch_patient ext.matchRank ext.snip H.fts_store query
          (top_k * 2) hX) r hr

def c5chunk : Chunk :=
  { id := "c1".data, content := "text".data,
    metadata := { patient_id := "P1".data, doc_type := "note".data,
                  date := some "2024".data, source_file := "f".data,
                  sectionName := none } }

def c5ext : SearchExt :=
  { vext := { embed := fun _ _ => [1], faissSearch := fun _ _ _ => [(1, 0)],
              dim := fun _ => 1 },
    matchRank := fun _ _ => none, snip := fun _ _ => [] }

def c5H : HybridSearchM :=
  { vector_store :=
      { embedding_model_name := "m".data, index := some [[1]],
        chunks := [c5chunk], chunk_to_idx := [("c1".data, 0)],
        dimension := some 1 },
    fts_store := emptyFTSStore }

/-- C5 counterexample: with `patient_id = ""` (a patient id, and `≠`
the indexed chunk's `"P1"`), Python's falsy check skips filtering and
the search returns the `"P1"` chunk, refuting the claim for every
patient id `X`. -/
theorem claim_C5_counterexample :
    hsearch c5ext c5H "q".data 5 (some []) "vector".data =
      [⟨c5chunk, 1, some 1, none, none⟩] ∧
    c5chunk.metadata.patient_id ≠ [] := by
  constructor
  · rfl
  · decide

theorem claim_C5_witness :
    (hsearch c5ext c5H "q".data 5 (some "P1".data) "vector".data).all
      (fun r => r.chunk.metadata.patient_id = "P1".data) = true := by
  have h := claim_C5 c5ext c5H "q".data 5 "P1".data "vector".data (by decide)
  rw [List.all_eq_true]
  intro r hr
  exact decide_eq_true (h r hr)

/-! ## Claim C3: hybrid fusion -/

theorem dictGet_none_of_not_any {α : Type} :
    ∀ (m : List (Str × α)) (k : Str),
      m.any (fun q => q.1 = k) = false → dictGet m k = none := by
  intro m
  induction m with
  | nil => intro k _; rfl
  | cons p rest ih =>
    intro k h
    rw [List.any_cons] at h
    rcases Bool.or_eq_false_iff.mp h with ⟨h1, h2⟩
    unfold dictGet
    rw [if_neg (by simpa using h1)]
    exact ih k h2

theorem dictGet_isSome_of_any {α : Type} :
    ∀ (m : List (Str × α)) (k : Str),
      m.any (fun q => q.1 = k) = true → ∃ v, dictGet m k = some v := by
  intro m
  induction m with
  | nil => intro k h; simp at h
  | cons p rest ih =>
    intro k h
    unfold dictGet
    by_cases hp : p.1 = k
    · exact ⟨p.2, by rw [if_pos hp]⟩
    · rw [if_neg hp]
      apply ih
      rw [List.any_cons] at h
      rcases Bool.or_eq_true_iff.mp h with h1 | h1
      · exact absurd (by simpa using h1) hp
      · exact h1

theorem dictGet_append_single {α : Type} :
    ∀ (m : List (Str × α)) (k k' : Str) (v' : α),
      dictGet (m ++ [(k', v')]) k =
        match dictGet m k with
        | some v => some v
        | none => if k' = k then some v' else none := by
  intro m
  induction m with
  | nil =>
    intro k k' v'
    show dictGet [(k', v')] k = _
    unfold dictGet
    rfl
  | cons p rest ih =>
    intro k k' v'
    rw [List.cons_append]
    unfold dictGet
    by_cases hp : p.1 = k
    · rw [if_pos hp, if_pos hp]
    · rw [if_neg hp, if_neg hp]
      exact ih k k' v'

theorem dictGet_map_overwrite {α : Type} (k' : Str) (v' : α) :
    ∀ (m : List (Str × α)) (k : Str),
      dictGet (m.map (fun p => if p.1 = k' then (k', v') else p)) k =
        if k' = k then
          (match dictGet m k' with
           | some _ => some v'
           | none => none)
        else dictGet m k := by
  intro m
  induction m with
  | nil =>
    intro k
    show (none : Option α) = _
    split <;> rfl
  | cons p rest ih =>
    intro k
    rw [List.map_cons]
    by_cases hp : p.1 = k'
    · rw [if_pos hp]
      show (if k' = k then some v' else dictGet _ k) = _
      by_cases hk : k' = k
      · rw [if_pos hk, if_pos hk]
        have : dictGet (p :: rest) k' = some p.2 := by
          unfold dictGet
          rw [if_pos hp]
        rw [this]
      · rw [if_neg hk, if_neg hk, ih k, if_neg hk]
        show dictGet rest k = dictGet (p :: rest) k
        unfold dictGet
        rw [if_neg (by rw [hp]; exact fun hcontra => hk hcontra)]
        cases rest <;> rfl
    · rw [if_neg hp]
      show (if p.1 = k then some p.2 else dictGet _ k) = _
      by_cases hk : k' = k
      · rw [if_pos hk]
        have hpk : ¬p.1 = k := by rw [← hk]; exact hp
        rw [if_neg hpk, ih k, if_pos hk]
        have : dictGet (p :: rest) k' = dictGet rest k' := by
          unfold dictGet
          rw [if_neg (by rw [hk]; exact hpk)]
          cases rest <;> rfl
        rw [this]
      · rw [if_neg hk, ih k, if_neg hk]
        show _ = dictGet (p :: rest) k
        unfold dictGet
        cases rest <;> rfl

theorem dictGet_dictSet {α : Type} (m : List (Str × α)) (k' k : Str) (v' : α) :
    dictGet (dictSet m k' v') k = if k' = k then some v' else dictGet m k := by
  unfold dictSet
  by_cases hany : (m.any (fun q => q.1 = k')) = true
  · rw [if_pos hany, dictGet_map_overwrite]
    obtain ⟨v, hv⟩ := dictGet_isSome_of_any m k' hany
    rw [hv]
  · rw [if_neg hany, dictGet_append_single]
    have hnone := dictGet_none_of_not_any m k'
      (by simp only [Bool.not_eq_true] at hany; exact hany)
    by_cases hk : k' = k
    · subst hk
      simp [hnone]
    · cases hget : dictGet m k with
      | none => rfl
      | some v => simp [hk]

theorem dictGet_nil {α : Type} (k : Str) : dictGet ([] : List (Str × α)) k = none := rfl

theorem dictGet_map_pair {β α : Type} (key : β → Str) (val : β → α) :
    ∀ (l : List β) (k : Str),
      dictGet (l.map (fun r => (key r, val r))) k =
        (l.find? (fun r => key r = k)).map val := by
  intro l
  induction l with
  | nil => intro k; rfl
  | cons x xs ih =>
    intro k
    rw [List.map_cons]
    by_cases hk : key x = k
    · rw [List.find?_cons_of_pos _ (by simpa using hk)]
      show (if key x = k then some (val x)
        else dictGet (xs.map (fun r => (key r, val r))) k) = some (val x)
      rw [if_pos hk]
    · rw [List.find?_cons_of_neg _ (by simpa using hk)]
      show (if key x = k then some (val x)
        else dictGet (xs.map (fun r => (key r, val r))) k) = _
      rw [if_neg hk]
      exact ih k

theorem option_if_isSome {α : Type} (o : Option α) (d : α) :
    (if o.isSome = true then some (o.getD d) else none) = o := by
  cases o <;> rfl

theorem option_none_or {α : Type} (o : Option α) : Option.or none o = o := by
  cases o <;> rfl

theorem option_or_none' {α : Type} (o : Option α) : Option.or o none = o := by
  cases o <;> rfl

theorem dictSet_not_mem {α : Type} (m : List (Str × α)) (k' : Str) (v' : α)
    (h : ∀ p ∈ m, p.1 ≠ k') : dictSet m k' v' = m ++ [(k', v')] := by
  unfold dictSet
  rw [if_neg]
  intro hc
  obtain ⟨p, hp, hpk⟩ := List.any_eq_true.mp hc
  exact h p hp (by simpa using hpk)

theorem foldl_dictSet_eq_map_aux {β α : Type} (key : β → Str) (val : β → α) :
    ∀ (l : List β) (m0 : List (Str × α)),
      (l.map key).Nodup → (∀ r ∈ l, ∀ p ∈ m0, p.1 ≠ key r) →
      l.foldl (fun m r => dictSet m (key r) (val r)) m0 =
        m0 ++ l.map (fun r => (key r, val r)) := by
  intro l
  induction l with
  | nil => intro m0 _ _; simp
  | cons x xs ih =>
    intro m0 hnd hdis
    rw [List.map_cons, List.nodup_cons] at hnd
    rw [List.foldl_cons,
      dictSet_not_mem m0 (key x) (val x)
        (fun p hp => hdis x (List.mem_cons_self x xs) p hp)]
    rw [ih (m0 ++ [(key x, val x)]) hnd.2 ?_]
    · simp
    · intro r hr p hp
      rcases List.mem_append.mp hp with h1 | h1
      · exact hdis r (List.mem_cons_of_mem x hr) p h1
      · rcases List.mem_singleton.mp h1 with rfl
        intro hcontra
        apply hnd.1
        rw [show key x = key r from hcontra]
        exact List.mem_map_of_mem key hr

theorem foldl_dictSet_eq_map {β α : Type} (key : β → Str) (val : β → α)
    (l : List β) (hnd : (l.map key).Nodup) :
    l.foldl (fun m r => dictSet m (key r) (val r)) [] =
      l.map (fun r => (key r, val r)) := by
  simpa using foldl_dictSet_eq_map_aux key val l [] hnd (by simp)

theorem dictGet_foldl_dictSet {β α : Type} (key : β → Str) (val : β → α) :
    ∀ (l : List β) (m0 : List (Str × α)), (l.map key).Nodup →
      ∀ k : Str,
        dictGet (l.foldl (fun m r => dictSet m (key r) (val r)) m0) k =
          ((l.find? (fun r => key r = k)).map val).or (dictGet m0 k) := by
  intro l
  induction l with
  | nil => intro m0 _ k; rfl
  | cons x xs ih =>
    intro m0 hnd k
    rw [List.map_cons, List.nodup_cons] at hnd
    rw [List.foldl_cons, ih _ hnd.2 k, dictGet_dictSet]
    by_cases hxk : key x = k
    · rw [List.find?_cons_of_pos _ (by simpa using hxk)]
      have hxs : xs.find? (fun r => key r = k) = none := by
        rw [List.find?_eq_none]
        intro r hr hrk
        apply hnd.1
        have heq : key r = key x := by
          rw [hxk]
          exact of_decide_eq_true hrk
        rw [← heq]
        exact List.mem_map_of_mem key hr
      rw [hxs, if_pos hxk]
      rfl
    · rw [List.find?_cons_of_neg _ (by simpa using hxk), if_neg hxk]

theorem foldl_triple_split {β A1 A2 A3 : Type}
    (f1 : A1 → β → A1) (f2 : A2 → β → A2) (f3 : A3 → β → A3) :
    ∀ (l : List β) (a : A1 × A2 × A3),
      l.foldl (fun acc r => (f1 acc.1 r, f2 acc.2.1 r, f3 acc.2.2 r)) a =
        (l.foldl f1 a.1, l.foldl f2 a.2.1, l.foldl f3 a.2.2) := by
  intro l
  induction l with
  | nil => intro a; rfl
  | cons x xs ih =>
    intro a
    rw [List.foldl_cons, ih]
    rfl

theorem le_foldl_max : ∀ (xs : List ℚ) (x : ℚ), x ≤ xs.foldl max x := by
  intro xs
  induction xs with
  | nil => intro x; exact le_refl x
  | cons y ys ih =>
    intro x
    rw [List.foldl_cons]
    exact le_trans (le_max_left x y) (ih (max x y))

theorem maxScore_pos {l : List ℚ} (hne : l ≠ []) (hpos : ∀ x ∈ l, 0 < x) :
    0 < maxScore l := by
  cases l with
  | nil => exact absurd rfl hne
  | cons x xs =>
    exact lt_of_lt_of_le (hpos x (List.mem_cons_self x xs)) (le_foldl_max xs x)

/-! Spec-side description of the hybrid algorithm (§4.4), written from
the spec's words for comparison with the source-derived `hybridFuse`. -/

/-- Spec: "normalize lexical scores by dividing by the maximum lexical
score in this query's result set". -/
def specFtsNorm (fres : List FTSResult) (cid : Str) : Option ℚ :=
  (fres.find? (fun r => r.chunk.id = cid)).map
    (fun r => r.score / maxScore (fres.map (fun r' => r'.score)))

/-- Spec: "vector scores are already bounded and used as-is". -/
def specVecScore (vres : List VSearchResult) (cid : Str) : Option ℚ :=
  (vres.find? (fun r => r.chunk.id = cid)).map (fun r => r.score)

/-- The chunk payload carried for an id (the lexical copy preferred,
matching the write order of the source's dictionaries). -/
def specChunkOf (vres : List VSearchResult) (fres : List FTSResult)
    (cid : Str) : Option Chunk :=
  ((fres.find? (fun r => r.chunk.id = cid)).map (fun r => r.chunk)).or
    ((vres.find? (fun r => r.chunk.id = cid)).map (fun r => r.chunk))

def specSnippet (fres : List FTSResult) (cid : Str) : Option Str :=
  (fres.find? (fun r => r.chunk.id = cid)).map (fun r => r.snippet)

/-- Spec: "the union of chunk IDs returned by either sub-index" (vector
ids first, then the remaining lexical ids; CPython's set iteration order
is unspecified, and this choice pins tie order only). -/
def specUnion (vres : List VSearchResult) (fres : List FTSResult) :
    List Str :=
  vres.map (fun r => r.chunk.id) ++
    (fres.map (fun r => r.chunk.id)).filter
      (fun k => ¬(vres.map (fun r => r.chunk.id)).contains k)

/-- Spec: "compute `combined = vector_weight × vector_score +
fts_weight × fts_score` (missing contribution from either side counts as
0), sort descending by `combined`, truncate to `top_k`". -/
def hybridFuseSpec (vw fw : ℚ) (vres : List VSearchResult)
    (fres : List FTSResult) (top_k : Nat) : List HybridResult :=
  let entries := (specUnion vres fres).filterMap (fun cid =>
    (specChunkOf vres fres cid).map (fun ch =>
      ({ chunk := ch,
         score := vw * ((specVecScore vres cid).getD 0) +
           fw * ((specFtsNorm fres cid).getD 0),
         vector_score := specVecScore vres cid,
         fts_score := specFtsNorm fres cid,
         snippet := specSnippet fres cid } : HybridResult)))
  (entries.insertionSort (fun a b => b.score ≤ a.score)).take top_k

theorem hybridFuse_eq_spec (vw fw : ℚ) (vres : List VSearchResult)
    (fres : List FTSResult) (top_k : Nat)
    (hvnd : (vres.map (fun r => r.chunk.id)).Nodup)
    (hfnd : (fres.map (fun r => r.chunk.id)).Nodup)
    (hpos : ∀ r ∈ fres, 0 < r.score) :
    hybridFuse vw fw vres fres top_k = hybridFuseSpec vw fw vres fres top_k := by
  unfold hybridFuse hybridFuseSpec specUnion specVecScore specFtsNorm
    specChunkOf specSnippet
  by_cases hf : fres = []
  · subst hf
    simp only [ne_eq, not_true_eq_false, if_false, List.map_nil,
      List.find?_nil, Option.map_none', List.filter_nil, List.append_nil,
      Bool.false_eq_true, dictGet_nil, option_none_or, option_or_none',
      foldl_dictSet_eq_map (fun r : VSearchResult => r.chunk.id)
        (fun r : VSearchResult => r.score) vres hvnd,
      foldl_dictSet_eq_map (fun r : VSearchResult => r.chunk.id)
        (fun r : VSearchResult => r.chunk) vres hvnd,
      dictGet_map_pair, option_if_isSome, List.map_map, Function.comp]
    rfl
  · have h0 : 0 < maxScore (fres.map (fun r' => r'.score)) :=
      maxScore_pos (by simpa using hf) (by
        intro x hx
        obtain ⟨r, hr, hrx⟩ := List.mem_map.mp hx
        rw [← hrx]
        exact hpos r hr)
    simp only []
    rw [if_pos hf]
    rw [foldl_triple_split
      (fun m (r : FTSResult) => dictSet m r.chunk.id
        (if 0 < maxScore (fres.map (fun r' => r'.score)) then
          r.score / maxScore (fres.map (fun r' => r'.score)) else 0))
      (fun m (r : FTSResult) => dictSet m r.chunk.id r.chunk)
      (fun m (r : FTSResult) => dictSet m r.chunk.id r.snippet) fres
      ([], List.foldl
        (fun m (r : VSearchResult) => dictSet m r.chunk.id r.chunk) [] vres,
        [])]
    simp only [if_pos h0,
      dictGet_foldl_dictSet (fun r : FTSResult => r.chunk.id)
        (fun r : FTSResult => r.chunk) fres
        (List.foldl
          (fun m (r : VSearchResult) => dictSet m r.chunk.id r.chunk)
          [] vres) hfnd]
    simp only [
      foldl_dictSet_eq_map (fun r : VSearchResult => r.chunk.id)
        (fun r : VSearchResult => r.score) vres hvnd,
      foldl_dictSet_eq_map (fun r : VSearchResult => r.chunk.id)
        (fun r : VSearchResult => r.chunk) vres hvnd,
      foldl_dictSet_eq_map (fun r : FTSResult => r.chunk.id)
        (fun r : FTSResult =>
          r.score / maxScore (fres.map (fun r' => r'.score))) fres hfnd,
      foldl_dictSet_eq_map (fun r : FTSResult => r.chunk.id)
        (fun r : FTSResult => r.snippet) fres hfnd,
      dictGet_map_pair, dictGet_nil, option_none_or, option_or_none',
      option_if_isSome, List.map_map, Function.comp]
    rfl

def c3chunkV : Chunk :=
  { id := "v1".data, content := "alpha".data,
    metadata := { patient_id := "P1".data, doc_type := "note".data,
                  date := none, source_file := "f".data,
                  sectionName := none } }

def c3chunkF : Chunk :=
  { id := "f1".data, content := "beta".data,
    metadata := { patient_id := "P1".data, doc_type := "note".data,
                  date := none, source_file := "f".data,
                  sectionName := none } }

def c3vres : List VSearchResult := [{ chunk := c3chunkV, score := 1 }]

def c3fres : List FTSResult :=
  [{ chunk := c3chunkF, score := 2, snippet := "beta".data }]

def c3ext : SearchExt :=
  { vext := { embed := fun _ _ => [], faissSearch := fun _ _ _ => [],
              dim := fun _ => 1 },
    matchRank := fun _ _ => none, snip := fun _ _ => [] }

def c3H : HybridSearchM :=
  { vector_store := freshVectorStore "m".data, fts_store := emptyFTSStore }

/-- C3: hybrid-mode search fetches `top_k * 2` candidates from each
sub-index and fuses them exactly as specified: lexical scores are
normalized by the query's maximum lexical score, vector scores are used
as-is, each id in the union of both result sets gets
`combined = vector_weight * vector_score + fts_weight * fts_score` with
a missing side contributing `0`, results are sorted descending by the
combined score and truncated to `top_k`; the construction-time default
weights are `0.5`/`0.5`.  The fusion equality is stated for sub-result
lists with duplicate-free ids and positive lexical scores, which the two
stores deliver; the modelled union is ordered vector-ids-first, pinning
only the tie order that CPython's set iteration leaves unspecified. -/
theorem claim_C3 (ext : SearchExt) (H : HybridSearchM) (query : Str)
    (top_k : Nat) (patient_id : Option Str) (vw fw : ℚ)
    (vres : List VSearchResult) (fres : List FTSResult)
    (hvnd : (vres.map (fun r => r.chunk.id)).Nodup)
    (hfnd : (fres.map (fun r => r.chunk.id)).Nodup)
    (hpos : ∀ r ∈ fres, 0 < r.score) :
    hybridSearch ext H query top_k patient_id =
      hybridFuse H.vector_weight H.fts_weight
        (vectorSearch ext.vext H.vector_store query (top_k * 2) patient_id 0)
        (ftsSearch ext.matchRank ext.snip H.fts_store query (top_k * 2)
          patient_id) top_k ∧
    hybridFuse vw fw vres fres top_k = hybridFuseSpec vw fw vres fres top_k ∧
    ({ vector_store := H.vector_store,
       fts_store := H.fts_store } : HybridSearchM).vector_weight = 1/2 ∧
    ({ vector_store := H.vector_store,
       fts_store := H.fts_store } : HybridSearchM).fts_weight = 1/2 :=
  ⟨rfl, hybridFuse_eq_spec vw fw vres fres top_k hvnd hfnd hpos, rfl, rfl⟩

/-- C3 witness: the theorem applied at a one-result-per-side instance. -/
theorem claim_C3_witness :
    hybridSearch c3ext c3H "q".data 5 none =
      hybridFuse c3H.vector_weight c3H.fts_weight
        (vectorSearch c3ext.vext c3H.vector_store "q".data (5 * 2) none 0)
        (ftsSearch c3ext.matchRank c3ext.snip c3H.fts_store "q".data (5 * 2)
          none) 5 ∧
    hybridFuse (1/2) (1/2) c3vres c3fres 5 =
      hybridFuseSpec (1/2) (1/2) c3vres c3fres 5 ∧
    ({ vector_store := c3H.vector_store,
       fts_store := c3H.fts_store } : HybridSearchM).vector_weight = 1/2 ∧
    ({ vector_store := c3H.vector_store,
       fts_store := c3H.fts_store } : HybridSearchM).fts_weight = 1/2 :=
  claim_C3 c3ext c3H "q".data 5 none (1/2) (1/2) c3vres c3fres
    (by decide) (by decide) (by decide)

/-- If the whole SOAP pipeline produces exactly one merged section and its
headed content fits the token budget, `_chunk_by_soap_sections` emits
exactly the one chunk built from it. -/
theorem chunkBySoap_single (C : Chunker) (doc : Document) (n m : Str)
    (hms :
      soapTrailing
        (soapMerge C.min_chunk_size
          (List.filterMap
            (fun pat =>
              match extractSoapSection pat.1 pat.2.1 (extractHeader doc.content).2 with
              | none => none
              | some mm => if pstrip mm ≠ [] then some (pat.2.2, pstrip mm) else none)
            soapPatterns)
          [] none).1
        (soapMerge C.min_chunk_size
          (List.filterMap
            (fun pat =>
              match extractSoapSection pat.1 pat.2.1 (extractHeader doc.content).2 with
              | none => none
              | some mm => if pstrip mm ≠ [] then some (pat.2.2, pstrip mm) else none)
            soapPatterns)
          [] none).2 = [(n, m)])
    (htok : C.countTokens (withHeader m (extractHeader doc.content).1) ≤
      C.max_tokens) :
    chunkBySoap C doc =
      [createChunk C doc (withHeader m (extractHeader doc.content).1) 0
        (some n)] := by
  unfold chunkBySoap
  simp only []
  rw [hms]
  simp only [List.foldl_cons, List.foldl_nil]
  unfold splitOversized
  rw [if_pos htok]
  unfold appendPieces
  simp only [List.foldl_cons, List.foldl_nil, List.length_nil,
    List.nil_append]
  rw [if_neg (List.cons_ne_nil _ _)]

def c9header : Str := "Patient: P1\nDate: 2024-01-01".data

def c9subj : Str := "Subjective: Feeling tired for two weeks.".data

def c9obj : Str := "Objective: ".data ++ List.replicate 889 'x'

def c9merged : Str := c9subj ++ '\n' :: '\n' :: c9obj

def c9doc : Document :=
  { content := c9header ++ '\n' :: c9subj ++ '\n' :: c9obj,
    patient_id := "P1".data, doc_type := "progress_note".data,
    date := some "2024-01-01".data, source_file := "note.txt".data }

def c9chunk : Chunk :=
  { id := "P1_progress_note_2024-01-01_0".data,
    content := c9header ++ '\n' :: '\n' :: c9merged,
    metadata := { patient_id := "P1".data,
                  doc_type := "progress_note".data,
                  date := some "2024-01-01".data,
                  source_file := "note.txt".data,
                  sectionName := some "subjective_objective".data } }

/-- C9: a SOAP progress note with a 40-character Subjective section
followed by a 900-character Objective section is chunked into exactly
one merged chunk named `subjective_objective`, whose content contains
both sections' text and the document header — for any tokenizer under
which the merged, headed content fits the 480-token budget. -/
theorem claim_C9 (f : Str → Nat) (g : Str → Str)
    (h : f (withHeader c9merged c9header) ≤ 480) :
    chunkDocument { countTokens := f, md5hex8 := g } c9doc = [c9chunk] ∧
    c9chunk.metadata.sectionName = some "subjective_objective".data ∧
    containsSub c9header c9chunk.content = true ∧
    containsSub c9subj c9chunk.content = true ∧
    containsSub c9obj c9chunk.content = true := by
  refine ⟨?_, rfl, by decide, by decide, by decide⟩
  show chunkBySoap { countTokens := f, md5hex8 := g } c9doc = [c9chunk]
  have hconc :
      soapTrailing
        (soapMerge 100
          (List.filterMap
            (fun pat =>
              match extractSoapSection pat.1 pat.2.1 (extractHeader c9doc.content).2 with
              | none => none
              | some mm => if pstrip mm ≠ [] then some (pat.2.2, pstrip mm) else none)
            soapPatterns)
          [] none).1
        (soapMerge 100
          (List.filterMap
            (fun pat =>
              match extractSoapSection pat.1 pat.2.1 (extractHeader c9doc.content).2 with
              | none => none
              | some mm => if pstrip mm ≠ [] then some (pat.2.2, pstrip mm) else none)
            soapPatterns)
          [] none).2 = [("subjective_objective".data, c9merged)] := by decide
  have hres := chunkBySoap_single { countTokens := f, md5hex8 := g } c9doc
    "subjective_objective".data c9merged hconc h
  rw [hres]
  rfl

/-- C9 witness: with one token per four characters the merged content
(972 characters, 243 tokens) fits the budget. -/
theorem claim_C9_witness :
    (fun s : Str => s.length / 4) (withHeader c9merged c9header) ≤ 480 ∧
    (chunkDocument { countTokens := fun s : Str => s.length / 4,
                     md5hex8 := fun _ => "00000000".data } c9doc = [c9chunk] ∧
      c9chunk.metadata.sectionName = some "subjective_objective".data ∧
      containsSub c9header c9chunk.content = true ∧
      containsSub c9subj c9chunk.content = true ∧
      containsSub c9obj c9chunk.content = true) :=
  ⟨by decide,
   claim_C9 (fun s : Str => s.length / 4) (fun _ => "00000000".data)
     (by decide)⟩

def c1C : Chunker :=
  { countTokens := fun s => s.length, md5hex8 := fun _ => "00000000".data }

def c1doc : Document :=
  { content := " ".data, patient_id := "P1".data, doc_type := "other".data,
    date := some "2024-01-01".data, source_file := "f.txt".data }

def c1wdoc : Document :=
  { content := "Patient stable. No acute distress.".data,
    patient_id := "P1".data, doc_type := "other".data,
    date := some "2024-01-01".data, source_file := "f.txt".data }

/-- C1 counterexample: the document whose content is the single space
`" "` is non-empty, yet `chunk_document` returns a chunk whose content
is empty after trimming (`_semantic_chunk` strips the content to `""`
and emits it as the single chunk). -/
theorem claim_C1_counterexample :
    c1doc.content ≠ [] ∧
    ∃ c ∈ chunkDocument c1C c1doc, pstrip c.content = [] := by decide

/-- C1 (amended): for every Document whose content contains at least one
non-whitespace character (rather than merely being a non-empty string),
`chunk_document` returns at least one Chunk under every chunking
configuration, and every returned chunk's content is non-empty after
trimming. -/
theorem claim_C1_amended (C : Chunker) (doc : Document)
    (h : containsNonWS doc.content = true) :
    1 ≤ (chunkDocument C doc).length ∧
    ∀ c ∈ chunkDocument C doc, pstrip c.content ≠ [] :=
  chunkDocument_NW C doc h

/-- C1 witness: the amended theorem applied to a concrete two-sentence
document. -/
theorem claim_C1_witness :
    containsNonWS c1wdoc.content = true ∧
    (1 ≤ (chunkDocument c1C c1wdoc).length ∧
      ∀ c ∈ chunkDocument c1C c1wdoc, pstrip c.content ≠ []) :=
  ⟨by decide, claim_C1_amended c1C c1wdoc (by decide)⟩

end SuspectDetection
